import Mathlib

/-! # cryptsolver: puzzle state, cursor and layout logic

A shallow embedding of `cryptsolver.c`.

Conventions of the embedding.

* A C `char` is held as its numeric code (a natural number); `' '` is 32,
  `'\n'` is 10, `'A'` is 65.
* A C string is the list of its characters before the terminating NUL, so
  `strlen` is the list length and reading index `strlen` gives the
  terminator `0` (`charAt`).
* `uint32_t` arithmetic is done on naturals with an explicit reduction
  modulo `2^32` wherever the source can wrap (`u32add`, `u32sub`).
* `assert` failures abort the program; functions containing one return an
  `Option`.
-/

namespace Cryptsolver

/-! ## Characters and strings -/

/-- The blank symbol `' '`. -/
def SPACE : Nat := 32

/-- The row marker `'\n'`. -/
def NEWLINE : Nat := 10

/-- Indexing `s[i]` of a NUL terminated string: the terminator is read at
the end of the list. -/
def charAt (s : List Nat) (i : Nat) : Nat := s.getD i 0

/-- The C library `isupper` in the "C" locale. -/
def isupper (c : Nat) : Bool := decide (65 ≤ c) && decide (c ≤ 90)

/-- The C library `islower` in the "C" locale. -/
def islower (c : Nat) : Bool := decide (97 ≤ c) && decide (c ≤ 122)

/-- The C library `isdigit`. -/
def isdigit (c : Nat) : Bool := decide (48 ≤ c) && decide (c ≤ 57)

/-- The C library `isalpha` in the "C" locale. -/
def isalpha (c : Nat) : Bool := isupper c || islower c

/-- The C library `isalnum` in the "C" locale. -/
def isalnum (c : Nat) : Bool := isalpha c || isdigit c

/-- The C library `toupper` in the "C" locale. -/
def toupper (c : Nat) : Nat := if islower c then c - 32 else c

/-! ## Substitution model: `display`, `case ADD_LETTER` -/

/-- One iteration of the `ADD_LETTER` loop body at index `i`.  The state is
the solution buffer together with the number of calls of
`printmsg("Duplicate letter detected, removing...")` made so far. -/
def add_letter_step (ctext : List Nat) (pointer letter : Nat)
    (st : List Nat × Nat) (i : Nat) : List Nat × Nat :=
  let st1 : List Nat × Nat :=
    if letter ≠ SPACE ∧ charAt st.1 i = letter ∧ charAt ctext i ≠ pointer then
      (st.1.set i SPACE, st.2 + 1)
    else st
  if charAt ctext i = pointer then (st1.1.set i letter, st1.2) else st1

/-- The loop `for (i = 0; i < tlen; ++i)` of `case ADD_LETTER`, run for the
first `n` indices. -/
def add_letter_loop (ctext : List Nat) (pointer letter : Nat) (stext : List Nat)
    (n : Nat) : List Nat × Nat :=
  (List.range n).foldl (add_letter_step ctext pointer letter) (stext, 0)

/-- The whole `case ADD_LETTER` of `display`: the new solution buffer and the
number of advisory messages printed. -/
def add_letter (ctext stext : List Nat) (cursor_pos letter : Nat) : List Nat × Nat :=
  add_letter_loop ctext (charAt ctext cursor_pos) letter stext ctext.length

/-- A sequence of `ADD_LETTER` actions, each a pair (cursor index, letter),
applied from left to right. -/
def run_assigns (ctext stext : List Nat) (acts : List (Nat × Nat)) : List Nat :=
  acts.foldl (fun s a => (add_letter ctext s a.1 a.2).1) stext

/-- The pointwise reference definition of an assignment: `p` is the
ciphertext character under the cursor, `g` the guessed symbol, `c` and `old`
the ciphertext character and the old solution value of one position. -/
def assign_ref (p g c old : Nat) : Nat :=
  if c = p then g else if g ≠ SPACE ∧ old = g then SPACE else old

/-- Number of indices below `n` at which the loop meets a conflict. -/
def conflicts (ctext stext : List Nat) (p g : Nat) (n : Nat) : Nat :=
  ((List.range n).filter fun i =>
    decide (g ≠ SPACE ∧ charAt stext i = g ∧ charAt ctext i ≠ p)).length

/-- Equal ciphertext characters hold equal solution values. -/
def Consistent (ctext stext : List Nat) : Prop :=
  ∀ i j, i < ctext.length → j < ctext.length →
    charAt ctext i = charAt ctext j → charAt stext i = charAt stext j

/-- No value other than the blank symbol and the initial fill `u` is held
under two different ciphertext characters. -/
def Injective (ctext stext : List Nat) (u : Nat) : Prop :=
  ∀ i j, i < ctext.length → j < ctext.length →
    charAt ctext i ≠ charAt ctext j → charAt stext i = charAt stext j →
      charAt stext i = SPACE ∨ charAt stext i = u

/-! ## Caesar solver: `rot`, `solve_caesar` -/

/-- The `int` value of a `char` with the given code (`char` is signed, as on
x86: codes from 128 on are negative). -/
def charVal (c : Nat) : Int := if c % 256 < 128 then ((c % 256 : Nat) : Int) else ((c % 256 : Nat) : Int) - 256

/-- Conversion of an `int` to `char`, giving the code. -/
def charCode (x : Int) : Nat := (x % 256).toNat

/-- Conversion of an `int` to `int8_t`. -/
def toInt8 (x : Int) : Int := if x % 256 < 128 then x % 256 else x % 256 - 256

/-- Conversion of an `int` to `uint8_t`. -/
def toUInt8 (x : Int) : Nat := (x % 256).toNat

/-- Source: `rot`.  `(((c - 'A') + shift) % 26) + 'A'`, computed on `int`
with the truncating remainder of C and converted to `char`. -/
def rot (c : Nat) (shift : Nat) : Nat :=
  charCode (Int.tmod ((charVal c - 65) + (shift : Int)) 26 + 65)

/-- The value of `shift` that `solve_caesar` passes to `rot` (lines 100-104
and the cast `(uint8_t)shift`), from the ciphertext character `c` and the
solution character `g` under the cursor. -/
def caesar_shift (c g : Nat) : Nat :=
  let shift0 : Int := toInt8 (charVal c - charVal (toupper g))
  let shift1 : Int := if shift0 < 0 then toInt8 (26 + shift0) else shift0
  let shift2 : Int := toInt8 (26 - shift1)
  toUInt8 shift2

/-- One iteration of the loop of `solve_caesar`. -/
def solve_caesar_step (ctext : List Nat) (shift : Nat) (stext : List Nat) (i : Nat) : List Nat :=
  if isalpha (charAt ctext i) then stext.set i (rot (charAt ctext i) shift) else stext

/-- Source: `solve_caesar`, with the two global buffers passed explicitly; the
result is the new solution buffer. -/
def solve_caesar (ctext stext : List Nat) (stext_idx : Nat) : List Nat :=
  if charAt stext stext_idx = SPACE then stext
  else
    (List.range ctext.length).foldl
      (solve_caesar_step ctext (caesar_shift (charAt ctext stext_idx) (charAt stext stext_idx)))
      stext

/-- Rotation of an upper-case letter forward by `s` places; other characters
are kept (the enciphering of the round-trip property). -/
def rotate_forward (s : Nat) (ch : Nat) : Nat :=
  if isupper ch then 65 + (ch - 65 + s) % 26 else ch

/-- Rotation of an upper-case letter backward by `s` places (`s ≤ 26`). -/
def rotate_back (s : Nat) (ch : Nat) : Nat := 65 + (ch - 65 + 26 - s) % 26

/-! ## Machine arithmetic and constants -/

/-- The modulus of `uint32_t`. -/
def U32 : Nat := 4294967296

/-- Addition on `uint32_t`. -/
def u32add (a b : Nat) : Nat := (a + b) % U32

/-- Subtraction on `uint32_t` (wraps below zero). -/
def u32sub (a b : Nat) : Nat := (a % U32 + U32 - b % U32) % U32

/-- Multiplication on `uint32_t`. -/
def u32mul (a b : Nat) : Nat := (a * b) % U32

/-- Source: `const uint32_t pad = 10`. -/
def pad : Nat := 10

/-- Source: `const uint32_t rowspace = 3`. -/
def rowspace : Nat := 3

/-- Source: `#define CURSOR_MOUSE UINT32_MAX`. -/
def CURSOR_MOUSE : Nat := 4294967295

/-- Source: `#define CURSOR_SET(_c) ((_c) < CURSOR_MOUSE)`. -/
def CURSOR_SET (c : Nat) : Bool := decide (c < CURSOR_MOUSE)

/-! ## Layout engine: `get_next_space`, `get_row_markers` -/

/-- The loop of `get_next_space` from index `i`; `fuel` bounds the number of
iterations and `len - i` is always enough. -/
def get_next_space_loop (ctext : List Nat) (len : Nat) : Nat → Nat → Nat
  | 0, i => i
  | fuel + 1, i =>
    if i < len then
      if charAt ctext i = SPACE then i else get_next_space_loop ctext len fuel (i + 1)
    else i

/-- Source: `get_next_space`.  The index of the first space after `pos`
below `len`, or the index at which the scan stops. -/
def get_next_space (ctext : List Nat) (len pos : Nat) : Nat :=
  get_next_space_loop ctext len (len - (pos + 1)) (pos + 1)

/-- The loop of `get_row_markers` from index `i` with column counter `ccol`;
every iteration advances `i`, so `tlen - i` iterations are enough. -/
def get_row_markers_loop (ctext : List Nat) (rowlen : Nat) :
    Nat → Nat → Nat → List Nat → List Nat
  | 0, _, _, mtext => mtext
  | fuel + 1, i, ccol, mtext =>
    if i < ctext.length then
      if charAt ctext i = SPACE ∧
          u32add ccol (u32sub (get_next_space ctext ctext.length i) i) > rowlen then
        get_row_markers_loop ctext rowlen fuel (i + 1 + 1) (0 + 1)
          ((mtext.set i NEWLINE).set (i + 1) (charAt ctext (i + 1)))
      else
        get_row_markers_loop ctext rowlen fuel (i + 1) (ccol + 1) (mtext.set i (charAt ctext i))
    else mtext

/-- Source: `get_row_markers`.  The marker text `mtext` (its `tlen` characters
before the terminator), starting from the `memset` to spaces. -/
def get_row_markers (ctext : List Nat) (rowlen : Nat) : List Nat :=
  get_row_markers_loop ctext rowlen ctext.length 0 0 (List.replicate ctext.length SPACE)

/-! ## Cursor model: `display`, `case MOVE_CURSOR` -/

/-- The loop `while (mpos > 0 && mtext[mpos - 1] != '\n') { --mpos; ++count; }`
used three times by the Up/Down code: the result is the new `mpos` and the
counter. -/
def line_start (mtext : List Nat) : Nat → Nat → Nat × Nat
  | 0, count => (0, count)
  | mpos + 1, count =>
    if charAt mtext mpos ≠ NEWLINE then line_start mtext mpos (count + 1) else (mpos + 1, count)

/-- The loop `while (cursor_offset > 0 && !isalnum(ctext[mpos + cursor_offset]))
--cursor_offset;` of the Up branch. -/
def up_scan (ctext : List Nat) (mpos : Nat) : Nat → Nat
  | 0 => 0
  | off + 1 => if isalnum (charAt ctext (mpos + (off + 1))) then off + 1 else up_scan ctext mpos off

/-- The Up branch of `case MOVE_CURSOR`; `none` when the assertion
`mpos + cursor_offset <= cursor_pos` fails. -/
def move_up (ctext mtext : List Nat) (cursor_pos : Nat) : Option Nat :=
  let ls := line_start mtext cursor_pos 0
  let r : Nat × Nat :=
    if ls.1 > 0 then
      let prev := line_start mtext (ls.1 - 1) 0
      let off := if ls.2 > prev.2 then prev.2 else ls.2
      (prev.1, up_scan ctext prev.1 off)
    else ls
  if r.1 + r.2 ≤ cursor_pos then some (r.1 + r.2) else none

/-- The loop `while (mpos < tlen && mtext[mpos - 1] != '\n') ++mpos;`. -/
def next_line_start (mtext : List Nat) (tlen : Nat) : Nat → Nat → Nat
  | 0, mpos => mpos
  | fuel + 1, mpos =>
    if mpos < tlen ∧ charAt mtext (mpos - 1) ≠ NEWLINE then
      next_line_start mtext tlen fuel (mpos + 1)
    else mpos

/-- The loop `while (mpos + llen < tlen && mtext[mpos + llen] != '\n') ++llen;`. -/
def line_length (mtext : List Nat) (tlen mpos : Nat) : Nat → Nat → Nat
  | 0, llen => llen
  | fuel + 1, llen =>
    if mpos + llen < tlen ∧ charAt mtext (mpos + llen) ≠ NEWLINE then
      line_length mtext tlen mpos fuel (llen + 1)
    else llen

/-- The loop `while (mpos + cursor_offset > tlen && cursor_offset > 0)
--cursor_offset;`. -/
def down_clamp (tlen mpos : Nat) : Nat → Nat
  | 0 => 0
  | off + 1 => if u32add mpos (off + 1) > tlen then down_clamp tlen mpos off else off + 1

/-- The loop `while (mpos + cursor_offset < tlen &&
!isalnum(ctext[mpos + cursor_offset])) ++cursor_offset;`. -/
def down_scan (ctext : List Nat) (tlen mpos : Nat) : Nat → Nat → Nat
  | 0, off => off
  | fuel + 1, off =>
    if u32add mpos off < tlen ∧ isalnum (charAt ctext (u32add mpos off)) = false then
      down_scan ctext tlen mpos fuel (u32add off 1)
    else off

/-- The Down branch of `case MOVE_CURSOR`. -/
def move_down (ctext mtext : List Nat) (cursor_pos : Nat) : Nat :=
  let tlen := ctext.length
  let ls := line_start mtext cursor_pos 0
  let mpos := next_line_start mtext tlen (tlen - (ls.1 + 1)) (ls.1 + 1)
  let llen := line_length mtext tlen mpos (tlen - mpos) 0
  let off1 := if ls.2 ≥ llen then u32sub llen 1 else ls.2
  let off2 := down_clamp tlen mpos off1
  let off3 := down_scan ctext tlen mpos tlen off2
  if u32add mpos off3 < tlen then u32add mpos off3 else cursor_pos

/-- The Left branch: `if (cursor_pos > 0) do { --cursor_pos; } while
(!isalnum(ctext[cursor_pos]) && cursor_pos > 0);`. -/
def move_left (ctext : List Nat) : Nat → Nat
  | 0 => 0
  | c + 1 => if isalnum (charAt ctext c) = false ∧ c > 0 then move_left ctext c else c

/-- The `do { ++cursor_pos; } while (!isalnum(ctext[cursor_pos]) &&
cursor_pos < tlen - 1);` loop of the Right branch; `last` is `tlen - 1`. -/
def move_right_loop (ctext : List Nat) (last : Nat) : Nat → Nat → Nat
  | 0, c => c
  | fuel + 1, c =>
    if isalnum (charAt ctext (c + 1)) = false ∧ c + 1 < last then
      move_right_loop ctext last fuel (c + 1)
    else c + 1

/-- The Right branch of `case MOVE_CURSOR`. -/
def move_right (ctext : List Nat) (cursor_pos : Nat) : Nat :=
  let last := u32sub ctext.length 1
  if cursor_pos < last then move_right_loop ctext last (last - cursor_pos) cursor_pos
  else cursor_pos

/-! ## Puzzle controller: `display` -/

/-- Source: the anonymous `enum` of directions in `action_t`. -/
inductive Direction where
  | DIR_UP
  | DIR_DOWN
  | DIR_LEFT
  | DIR_RIGHT
  deriving DecidableEq, Repr

/-- Source: `action_t`, the tag together with the member of the union that
the tag selects. -/
inductive Action where
  | NONE
  | MOVE_CURSOR (direction : Direction)
  | JUMP_CURSOR (row col : Nat)
  | ADD_LETTER (letter : Nat)
  | SOLVE_CAESAR
  deriving DecidableEq, Repr

/-- The state kept between calls of `display`: the static `cursor_pos` and the
global solution buffer `stext`. -/
structure PuzzleState where
  cursor_pos : Nat
  stext : List Nat
  deriving DecidableEq, Repr

/-- The variables of the render loop of `display`; `breaks` records, in
order, the indices of the spaces consumed as carriage returns. -/
structure RenderState where
  crow : Nat
  ccol : Nat
  cursor_pos : Nat
  cursor_row : Nat
  cursor_col : Nat
  breaks : List Nat
  deriving DecidableEq, Repr

/-- What one call of `display` leaves behind: the state, the caret
coordinates passed to `move`, the number of advisory messages printed, the
carriage returns of the last render and the number of nested re-renders. -/
structure Frame where
  cursor_pos : Nat
  stext : List Nat
  cursor_row : Nat
  cursor_col : Nat
  msgs : Nat
  breaks : List Nat
  rerenders : Nat
  deriving DecidableEq, Repr

/-- The body of the render loop of `display` at index `i`: the next value of
`i` (after the `++i` of the `for`) and the new variables; `none` when one of
the two assertions fails. -/
def render_step (ctext : List Nat) (mrow mcol mouserow mousecol : Nat) (i : Nat)
    (rs : RenderState) : Option (Nat × RenderState) :=
  let wrap : Bool := decide (charAt ctext i = SPACE ∧
    u32add rs.ccol (u32mul (u32sub (get_next_space ctext ctext.length i) i) 2)
      > u32sub mcol pad)
  let i1 := if wrap then i + 1 else i
  let crow1 := if wrap then u32add rs.crow rowspace else rs.crow
  let ccol1 := if wrap then pad else rs.ccol
  let breaks1 := if wrap then rs.breaks ++ [i] else rs.breaks
  if wrap = true ∧ ¬ (crow1 < mrow) then none
  else
    let cursor1 :=
      if rs.cursor_pos = CURSOR_MOUSE ∧ isalnum (charAt ctext i1) = true ∧
          ccol1 = mousecol ∧ (crow1 = mouserow ∨ u32sub crow1 1 = mouserow) then i1
      else rs.cursor_pos
    let cursor_row1 := if cursor1 = i1 then u32sub crow1 1 else rs.cursor_row
    let cursor_col1 := if cursor1 = i1 then ccol1 else rs.cursor_col
    let ccol2 := u32add ccol1 2
    if ¬ (ccol2 ≤ u32sub mcol pad) then none
    else
      some (i1 + 1,
        { crow := crow1, ccol := ccol2, cursor_pos := cursor1,
          cursor_row := cursor_row1, cursor_col := cursor_col1, breaks := breaks1 })

/-- The render loop `for (i = 0; i < tlen; ++i)` of `display` from index `i`.
Every iteration advances `i`, so `tlen - i` iterations are enough. -/
def render_loop (ctext : List Nat) (mrow mcol mouserow mousecol : Nat) :
    Nat → Nat → RenderState → Option RenderState
  | 0, _, rs => some rs
  | fuel + 1, i, rs =>
    if i < ctext.length then
      match render_step ctext mrow mcol mouserow mousecol i rs with
      | none => none
      | some next => render_loop ctext mrow mcol mouserow mousecol fuel next.1 next.2
    else some rs

/-- The first part of `display`, `switch (action->act_type)`: the new cursor,
the new solution buffer, the number of messages printed and the mouse
coordinates; `none` when the assertion of the Up branch fails. -/
def process_action (ctext : List Nat) (mcol : Nat) (st : PuzzleState) :
    Action → Option (PuzzleState × Nat × Nat × Nat)
  | Action.NONE => some (st, 0, 0, 0)
  | Action.MOVE_CURSOR Direction.DIR_UP =>
    (move_up ctext (get_row_markers ctext (u32sub mcol (2 * pad) / 2)) st.cursor_pos).map
      fun c => ({ st with cursor_pos := c }, 0, 0, 0)
  | Action.MOVE_CURSOR Direction.DIR_DOWN =>
    let c := move_down ctext (get_row_markers ctext (u32sub mcol (2 * pad) / 2)) st.cursor_pos
    some ({ st with cursor_pos := c }, 0, 0, 0)
  | Action.MOVE_CURSOR Direction.DIR_LEFT =>
    some ({ st with cursor_pos := move_left ctext st.cursor_pos }, 0, 0, 0)
  | Action.MOVE_CURSOR Direction.DIR_RIGHT =>
    some ({ st with cursor_pos := move_right ctext st.cursor_pos }, 0, 0, 0)
  | Action.JUMP_CURSOR row col => some ({ st with cursor_pos := CURSOR_MOUSE }, 0, row, col)
  | Action.ADD_LETTER letter =>
    some ({ st with stext := (add_letter ctext st.stext st.cursor_pos letter).1 },
      (add_letter ctext st.stext st.cursor_pos letter).2, 0, 0)
  | Action.SOLVE_CAESAR =>
    some ({ st with stext := solve_caesar ctext st.stext st.cursor_pos }, 0, 0, 0)

/-- One activation of `display` up to the test `if (!CURSOR_SET(cursor_pos))`:
the action is processed and the text is rendered. -/
def display_pass (ctext : List Nat) (mrow mcol : Nat) (st : PuzzleState) (act : Action) :
    Option Frame :=
  match process_action ctext mcol st act with
  | none => none
  | some (st1, msgs, mouserow, mousecol) =>
    match render_loop ctext mrow mcol mouserow mousecol ctext.length 0
        { crow := rowspace, ccol := pad, cursor_pos := st1.cursor_pos,
          cursor_row := 0, cursor_col := 0, breaks := [] } with
    | none => none
    | some rs =>
      some { cursor_pos := rs.cursor_pos, stext := st1.stext, cursor_row := rs.cursor_row,
             cursor_col := rs.cursor_col, msgs := msgs, breaks := rs.breaks, rerenders := 0 }

/-- Source: `display`.  When the pass ends with the cursor unset, the action
becomes `NONE`, the cursor is put back to `old_cursor_pos` and `display` is
entered again.  That nested activation works on the old state with the action
`NONE`; if it ends with the cursor unset as well, every further activation
repeats it and the function never returns, which is `none` here like an
assertion failure. -/
def display (ctext : List Nat) (mrow mcol : Nat) (st : PuzzleState) (act : Action) :
    Option Frame :=
  match display_pass ctext mrow mcol st act with
  | none => none
  | some fr =>
    if CURSOR_SET fr.cursor_pos then some fr
    else
      match display_pass ctext mrow mcol
          { cursor_pos := st.cursor_pos, stext := fr.stext } Action.NONE with
      | none => none
      | some fr2 =>
        if CURSOR_SET fr2.cursor_pos then some { fr2 with rerenders := 1 } else none

/-! ## Rows, words and rendered cells -/

/-- The lengths of the maximal runs of characters between two separators
`sep`, or between a text end and a separator: with `sep` the space these are
the word lengths of a ciphertext, with `sep` the newline the row lengths of a
marker text. -/
def run_lengths (sep : Nat) : List Nat → List Nat
  | [] => [0]
  | x :: xs =>
    if x = sep then 0 :: run_lengths sep xs
    else
      match run_lengths sep xs with
      | [] => [1]
      | l :: ls => (l + 1) :: ls

/-- In the marker text `mtext`, `R` is the first index of the row that holds
index `c`: `R` is index 0 or follows a row marker, and no row marker stands
between `R` and `c`. -/
def RowStartOf (mtext : List Nat) (c R : Nat) : Prop :=
  R ≤ c ∧ (R = 0 ∨ charAt mtext (R - 1) = NEWLINE) ∧
    ∀ j, R ≤ j → j < c → charAt mtext j ≠ NEWLINE

/-- One call `mvaddch(crow, ccol, ctext[i] | style_cipher)` of the render loop:
the ciphertext index drawn and the screen position of its cipher cell (the
solution cell is drawn one line above, at `crow - 1`). -/
structure Cell where
  idx : Nat
  crow : Nat
  ccol : Nat
  deriving DecidableEq, Repr

/-- The cells drawn by the render loop of `display` from index `i` on, with
the row and column counters `crow` and `ccol`; `none` when one of the two
assertions of the loop fails.  The layout does not depend on the cursor. -/
def render_cells_loop (ctext : List Nat) (mrow mcol : Nat) :
    Nat → Nat → Nat → Nat → Option (List Cell)
  | 0, _, _, _ => some []
  | fuel + 1, i, crow, ccol =>
    if i < ctext.length then
      let wrap : Bool := decide (charAt ctext i = SPACE ∧
        u32add ccol (u32mul (u32sub (get_next_space ctext ctext.length i) i) 2)
          > u32sub mcol pad)
      let i1 := if wrap then i + 1 else i
      let crow1 := if wrap then u32add crow rowspace else crow
      let ccol1 := if wrap then pad else ccol
      if wrap = true ∧ ¬ (crow1 < mrow) then none
      else if ¬ (u32add ccol1 2 ≤ u32sub mcol pad) then none
      else
        match render_cells_loop ctext mrow mcol fuel (i1 + 1) crow1 (u32add ccol1 2) with
        | none => none
        | some cells => some ({ idx := i1, crow := crow1, ccol := ccol1 } :: cells)
    else some []

/-- The cells that one render of the whole text draws, `none` when an
assertion fails. -/
def render_cells (ctext : List Nat) (mrow mcol : Nat) : Option (List Cell) :=
  render_cells_loop ctext mrow mcol ctext.length 0 rowspace pad

/-- A click at (`row`, `col`) is on the cell `c` of an alphanumeric character:
on its column, and on its cipher row (`c.crow = row`) or on its solution row
one line above (`c.crow = row + 1`). -/
def click_hits (ctext : List Nat) (row col : Nat) (c : Cell) : Bool :=
  isalnum (charAt ctext c.idx) && decide (c.ccol = col) &&
    (decide (c.crow = row) || decide (c.crow = row + 1))

/-- The test of the render loop that resolves a pending click at
(`mouserow`, `mousecol`), applied to the cell `c`: `isalnum(ctext[i]) &&
ccol == mousecol && (crow == mouserow || crow - 1 == mouserow)`. -/
def mouse_hit (ctext : List Nat) (mouserow mousecol : Nat) (c : Cell) : Bool :=
  decide (isalnum (charAt ctext c.idx) = true ∧ c.ccol = mousecol ∧
    (c.crow = mouserow ∨ u32sub c.crow 1 = mouserow))

/-! # Theorems -/

/-! ### Lemmas on the assignment loop -/

theorem charAt_set (s : List Nat) (i j v : Nat) :
    charAt (s.set i v) j = if i = j ∧ i < s.length then v else charAt s j := by
  unfold charAt
  by_cases h : i = j
  · subst h
    by_cases hi : i < s.length
    · simp [List.getD_eq_getElem?_getD, List.getElem?_set, hi]
    · have hnone : s[i]? = none := List.getElem?_eq_none (by omega)
      simp [List.getD_eq_getElem?_getD, List.getElem?_set, hi, hnone]
  · simp [List.getD_eq_getElem?_getD, List.getElem?_set, h]

theorem add_letter_loop_succ (ctext : List Nat) (p g : Nat) (stext : List Nat) (n : Nat) :
    add_letter_loop ctext p g stext (n + 1) =
      add_letter_step ctext p g (add_letter_loop ctext p g stext n) n := by
  simp [add_letter_loop, List.range_succ, List.foldl_append]

theorem conflicts_succ (ctext stext : List Nat) (p g n : Nat) :
    conflicts ctext stext p g (n + 1) =
      conflicts ctext stext p g n +
        (if g ≠ SPACE ∧ charAt stext n = g ∧ charAt ctext n ≠ p then 1 else 0) := by
  simp only [conflicts, List.range_succ, List.filter_append, List.length_append]
  by_cases h : g ≠ SPACE ∧ charAt stext n = g ∧ charAt ctext n ≠ p
  · simp [h]
  · simp [h]

/-- The loop invariant: after `n` iterations the buffer has its length
unchanged, the first `n` positions hold the reference value, the others are
untouched, and one message was printed per conflict met. -/
theorem add_letter_loop_spec (ctext : List Nat) (p g : Nat) (stext : List Nat) (n : Nat)
    (hn : n ≤ stext.length) :
    (add_letter_loop ctext p g stext n).1.length = stext.length ∧
    (∀ i, charAt (add_letter_loop ctext p g stext n).1 i =
      if i < n then assign_ref p g (charAt ctext i) (charAt stext i) else charAt stext i) ∧
    (add_letter_loop ctext p g stext n).2 = conflicts ctext stext p g n := by
  induction n with
  | zero => simp [add_letter_loop, conflicts]
  | succ n ih =>
    obtain ⟨hlen, hget, hmsg⟩ := ih (Nat.le_of_succ_le hn)
    have hnl : n < (add_letter_loop ctext p g stext n).1.length := by omega
    have hcur : charAt (add_letter_loop ctext p g stext n).1 n = charAt stext n := by
      rw [hget n]; simp
    rw [add_letter_loop_succ, conflicts_succ]
    refine ⟨?_, ?_, ?_⟩
    · unfold add_letter_step
      simp only [hcur]
      split_ifs <;> simp [hlen]
    · intro i
      unfold add_letter_step
      simp only [hcur]
      by_cases hin : i = n
      · subst hin
        by_cases h1 : charAt ctext i = p
        · split_ifs <;> simp_all [charAt_set, assign_ref]
        · by_cases h2 : g ≠ SPACE ∧ charAt stext i = g
          · simp [charAt_set, assign_ref, h1, h2, hnl]
          · have h3 : ¬ (g ≠ SPACE ∧ charAt stext i = g ∧ charAt ctext i ≠ p) :=
              fun h => h2 ⟨h.1, h.2.1⟩
            simp only [assign_ref, h1, h2, h3, if_false, hget i]
            simp
      · have hne : ¬ (n = i) := fun h => hin h.symm
        by_cases hlt : i < n
        · have : i < n + 1 := by omega
          split_ifs <;> simp_all [charAt_set]
        · have : ¬ (i < n + 1) := by omega
          split_ifs <;> simp_all [charAt_set]
    · unfold add_letter_step
      simp only [hcur]
      split_ifs <;> simp_all

theorem add_letter_length (ctext stext : List Nat) (cur g : Nat)
    (hlen : stext.length = ctext.length) :
    (add_letter ctext stext cur g).1.length = ctext.length := by
  have h := (add_letter_loop_spec ctext (charAt ctext cur) g stext ctext.length (by omega)).1
  simpa [add_letter, hlen] using h

theorem add_letter_get (ctext stext : List Nat) (cur g : Nat)
    (hlen : stext.length = ctext.length) (i : Nat) (hi : i < ctext.length) :
    charAt (add_letter ctext stext cur g).1 i =
      assign_ref (charAt ctext cur) g (charAt ctext i) (charAt stext i) := by
  have h := (add_letter_loop_spec ctext (charAt ctext cur) g stext ctext.length (by omega)).2.1 i
  simpa [add_letter, hi] using h

theorem add_letter_msgs (ctext stext : List Nat) (cur g : Nat)
    (hlen : stext.length = ctext.length) :
    (add_letter ctext stext cur g).2 = conflicts ctext stext (charAt ctext cur) g ctext.length :=
  (add_letter_loop_spec ctext (charAt ctext cur) g stext ctext.length (by omega)).2.2

theorem conflicts_eq_zero (ctext stext : List Nat) (p g n : Nat)
    (h : ∀ i, i < n → charAt stext i ≠ g) : conflicts ctext stext p g n = 0 := by
  unfold conflicts
  rw [List.length_eq_zero, List.filter_eq_nil_iff]
  intro i hi
  have hi2 : i < n := List.mem_range.mp hi
  simp [h i hi2]

theorem conflicts_pos (ctext stext : List Nat) (p g n i : Nat) (hi : i < n)
    (hg : g ≠ SPACE) (hs : charAt stext i = g) (hc : charAt ctext i ≠ p) :
    0 < conflicts ctext stext p g n := by
  unfold conflicts
  have hmem : i ∈ (List.range n).filter fun i =>
      decide (g ≠ SPACE ∧ charAt stext i = g ∧ charAt ctext i ≠ p) := by
    rw [List.mem_filter]
    exact ⟨List.mem_range.mpr hi, by simp [hg, hs, hc]⟩
  exact List.length_pos_of_mem hmem

theorem charAt_replicate (n u i : Nat) (hi : i < n) : charAt (List.replicate n u) i = u := by
  simp [charAt, List.getD_eq_getElem?_getD, List.getElem?_replicate, hi]

theorem add_letter_consistent (ctext stext : List Nat) (cur g : Nat)
    (hlen : stext.length = ctext.length) (h : Consistent ctext stext) :
    Consistent ctext (add_letter ctext stext cur g).1 := by
  intro i j hi hj hc
  rw [add_letter_get ctext stext cur g hlen i hi, add_letter_get ctext stext cur g hlen j hj,
    hc, h i j hi hj hc]

theorem add_letter_injective (ctext stext : List Nat) (cur g u : Nat)
    (hlen : stext.length = ctext.length) (h : Injective ctext stext u) :
    Injective ctext (add_letter ctext stext cur g).1 u := by
  intro i j hi hj hc
  rw [add_letter_get ctext stext cur g hlen i hi, add_letter_get ctext stext cur g hlen j hj]
  have hold := h i j hi hj hc
  unfold assign_ref
  intro heq
  by_cases hgs : g = SPACE
  · subst hgs
    split_ifs at heq ⊢ <;> simp_all
  · split_ifs at heq ⊢ <;> simp_all

theorem run_assigns_length (ctext : List Nat) (acts : List (Nat × Nat)) :
    ∀ stext : List Nat, stext.length = ctext.length →
      (run_assigns ctext stext acts).length = ctext.length := by
  induction acts with
  | nil => intro stext h; simpa [run_assigns] using h
  | cons a t ih =>
    intro stext h
    have := ih (add_letter ctext stext a.1 a.2).1 (add_letter_length ctext stext a.1 a.2 h)
    simpa [run_assigns] using this

theorem run_assigns_consistent (ctext : List Nat) (acts : List (Nat × Nat)) :
    ∀ stext : List Nat, stext.length = ctext.length → Consistent ctext stext →
      Consistent ctext (run_assigns ctext stext acts) := by
  induction acts with
  | nil => intro stext _ h; simpa [run_assigns] using h
  | cons a t ih =>
    intro stext hl h
    have := ih (add_letter ctext stext a.1 a.2).1 (add_letter_length ctext stext a.1 a.2 hl)
      (add_letter_consistent ctext stext a.1 a.2 hl h)
    simpa [run_assigns] using this

theorem run_assigns_injective (ctext : List Nat) (u : Nat) (acts : List (Nat × Nat)) :
    ∀ stext : List Nat, stext.length = ctext.length → Injective ctext stext u →
      Injective ctext (run_assigns ctext stext acts) u := by
  induction acts with
  | nil => intro stext _ h; simpa [run_assigns] using h
  | cons a t ih =>
    intro stext hl h
    have := ih (add_letter ctext stext a.1 a.2).1 (add_letter_length ctext stext a.1 a.2 hl)
      (add_letter_injective ctext stext a.1 a.2 u hl h)
    simpa [run_assigns] using this

/-! ### Claims on the substitution model -/

/-- C1 (substitution consistency).  Start from the solution buffer filled with
one value `u` (all unset) and apply any sequence of `ADD_LETTER` actions, each
at a cursor index inside the ciphertext and with any symbol.  After each
action of the sequence (after the first `k` actions, for every `k`) any two
positions with equal ciphertext characters hold equal solution values. -/
theorem assign_consistency (ctext : List Nat) (u : Nat) (acts : List (Nat × Nat))
    (_hacts : ∀ a ∈ acts, a.1 < ctext.length) (k : Nat) :
    ∀ i j, i < ctext.length → j < ctext.length → charAt ctext i = charAt ctext j →
      charAt (run_assigns ctext (List.replicate ctext.length u) (acts.take k)) i =
        charAt (run_assigns ctext (List.replicate ctext.length u) (acts.take k)) j := by
  have h0 : Consistent ctext (List.replicate ctext.length u) := by
    intro i j hi hj _
    rw [charAt_replicate _ _ _ hi, charAt_replicate _ _ _ hj]
  exact run_assigns_consistent ctext (acts.take k) _ (by simp) h0

theorem assign_consistency_witness :
    (∀ a ∈ [((0 : Nat), (120 : Nat)), (1, 120), (2, 32)], a.1 < [65, 66, 65].length) ∧
    ∀ i j, i < [65, 66, 65].length → j < [65, 66, 65].length →
      charAt [65, 66, 65] i = charAt [65, 66, 65] j →
      charAt (run_assigns [65, 66, 65] (List.replicate [65, 66, 65].length 0)
        ([(0, 120), (1, 120), (2, 32)].take 2)) i =
      charAt (run_assigns [65, 66, 65] (List.replicate [65, 66, 65].length 0)
        ([(0, 120), (1, 120), (2, 32)].take 2)) j :=
  ⟨by decide, assign_consistency [65, 66, 65] 0 [(0, 120), (1, 120), (2, 32)] (by decide) 2⟩

/-- C2 (substitution injectivity).  Start from the solution buffer filled with
one value `u` (all unset) and apply any sequence of `ADD_LETTER` actions at
cursor indices inside the ciphertext.  At every point of the sequence, two
positions with different ciphertext characters never hold the same guessed
letter: if they hold equal values, that value is the blank symbol or the
initial unset fill. -/
theorem assign_injectivity (ctext : List Nat) (u : Nat) (acts : List (Nat × Nat))
    (_hacts : ∀ a ∈ acts, a.1 < ctext.length) (k : Nat) :
    ∀ i j, i < ctext.length → j < ctext.length → charAt ctext i ≠ charAt ctext j →
      charAt (run_assigns ctext (List.replicate ctext.length u) (acts.take k)) i =
        charAt (run_assigns ctext (List.replicate ctext.length u) (acts.take k)) j →
      charAt (run_assigns ctext (List.replicate ctext.length u) (acts.take k)) i = SPACE ∨
      charAt (run_assigns ctext (List.replicate ctext.length u) (acts.take k)) i = u := by
  have h0 : Injective ctext (List.replicate ctext.length u) u := by
    intro i j hi _ _ _
    right
    exact charAt_replicate _ _ _ hi
  exact run_assigns_injective ctext u (acts.take k) _ (by simp) h0

theorem assign_injectivity_witness :
    (∀ a ∈ [((0 : Nat), (120 : Nat)), (1, 120), (2, 121)], a.1 < [65, 66, 65].length) ∧
    ∀ i j, i < [65, 66, 65].length → j < [65, 66, 65].length →
      charAt [65, 66, 65] i ≠ charAt [65, 66, 65] j →
      charAt (run_assigns [65, 66, 65] (List.replicate [65, 66, 65].length 0)
        ([(0, 120), (1, 120), (2, 121)].take 3)) i =
      charAt (run_assigns [65, 66, 65] (List.replicate [65, 66, 65].length 0)
        ([(0, 120), (1, 120), (2, 121)].take 3)) j →
      charAt (run_assigns [65, 66, 65] (List.replicate [65, 66, 65].length 0)
        ([(0, 120), (1, 120), (2, 121)].take 3)) i = SPACE ∨
      charAt (run_assigns [65, 66, 65] (List.replicate [65, 66, 65].length 0)
        ([(0, 120), (1, 120), (2, 121)].take 3)) i = 0 :=
  ⟨by decide, assign_injectivity [65, 66, 65] 0 [(0, 120), (1, 120), (2, 121)] (by decide) 3⟩

/-- C3 (assign equals its pointwise reference).  For a solution buffer of the
length of the ciphertext, a cursor inside the ciphertext and any symbol `g`,
the buffer after `ADD_LETTER` keeps its length and holds at every index `i`:
`g` where the ciphertext character equals the one under the cursor; otherwise
the blank symbol where `g` is not blank and the old value was `g`; otherwise
the old value.  With `g` the blank symbol, exactly the positions of the
cursor's group are cleared and nothing else changes. -/
theorem assign_pointwise (ctext stext : List Nat) (cursor g : Nat)
    (hlen : stext.length = ctext.length) (_hcur : cursor < ctext.length) :
    (add_letter ctext stext cursor g).1.length = ctext.length ∧
    (∀ i, i < ctext.length →
      charAt (add_letter ctext stext cursor g).1 i =
        if charAt ctext i = charAt ctext cursor then g
        else if g ≠ SPACE ∧ charAt stext i = g then SPACE
        else charAt stext i) ∧
    (g = SPACE → ∀ i, i < ctext.length →
      charAt (add_letter ctext stext cursor g).1 i =
        if charAt ctext i = charAt ctext cursor then SPACE else charAt stext i) := by
  refine ⟨add_letter_length ctext stext cursor g hlen, ?_, ?_⟩
  · intro i hi
    rw [add_letter_get ctext stext cursor g hlen i hi]
    rfl
  · intro hg i hi
    rw [add_letter_get ctext stext cursor g hlen i hi]
    subst hg
    simp [assign_ref]

theorem assign_pointwise_witness :
    [120, 0, 120, 121].length = [65, 66, 67, 68].length ∧ 1 < [65, 66, 67, 68].length ∧
    ((add_letter [65, 66, 67, 68] [120, 0, 120, 121] 1 120).1.length = [65, 66, 67, 68].length ∧
    (∀ i, i < [65, 66, 67, 68].length →
      charAt (add_letter [65, 66, 67, 68] [120, 0, 120, 121] 1 120).1 i =
        if charAt [65, 66, 67, 68] i = charAt [65, 66, 67, 68] 1 then 120
        else if 120 ≠ SPACE ∧ charAt [120, 0, 120, 121] i = 120 then SPACE
        else charAt [120, 0, 120, 121] i) ∧
    (120 = SPACE → ∀ i, i < [65, 66, 67, 68].length →
      charAt (add_letter [65, 66, 67, 68] [120, 0, 120, 121] 1 120).1 i =
        if charAt [65, 66, 67, 68] i = charAt [65, 66, 67, 68] 1 then SPACE
        else charAt [120, 0, 120, 121] i)) :=
  ⟨by decide, by decide,
    assign_pointwise [65, 66, 67, 68] [120, 0, 120, 121] 1 120 (by decide) (by decide)⟩

/-- C4 (conflict eviction).  Let the ciphertext hold two different characters
`a` (at index `ia`) and `b` (at index `ib`), and let `x` be a non-blank letter
that no cell of the all-unset initial buffer (filled with `u`) holds.
Assigning `x` with the cursor on `ia` and then `x` with the cursor on `ib`
leaves every `a`-position blank and every `b`-position holding `x`; the first
assignment prints no duplicate-letter message and the second prints it. -/
theorem conflict_eviction (ctext : List Nat) (u a b x ia ib : Nat)
    (hia : ia < ctext.length) (_hib : ib < ctext.length)
    (ha : charAt ctext ia = a) (hb : charAt ctext ib = b) (hab : a ≠ b)
    (hx : x ≠ SPACE) (hxu : x ≠ u) :
    (∀ i, i < ctext.length → charAt ctext i = a →
      charAt (add_letter ctext
        (add_letter ctext (List.replicate ctext.length u) ia x).1 ib x).1 i = SPACE) ∧
    (∀ i, i < ctext.length → charAt ctext i = b →
      charAt (add_letter ctext
        (add_letter ctext (List.replicate ctext.length u) ia x).1 ib x).1 i = x) ∧
    (add_letter ctext (List.replicate ctext.length u) ia x).2 = 0 ∧
    0 < (add_letter ctext (add_letter ctext (List.replicate ctext.length u) ia x).1 ib x).2 := by
  have hl0 : (List.replicate ctext.length u).length = ctext.length := by simp
  have hl1 := add_letter_length ctext (List.replicate ctext.length u) ia x hl0
  have h1 : ∀ i, i < ctext.length → charAt ctext i = a →
      charAt (add_letter ctext (List.replicate ctext.length u) ia x).1 i = x := by
    intro i hi hca
    rw [add_letter_get ctext _ ia x hl0 i hi]
    simp [assign_ref, ha, hca]
  refine ⟨?_, ?_, ?_, ?_⟩
  · intro i hi hca
    rw [add_letter_get ctext _ ib x hl1 i hi, h1 i hi hca]
    simp [assign_ref, hb, hca, hab, hx]
  · intro i hi hcb
    rw [add_letter_get ctext _ ib x hl1 i hi]
    simp [assign_ref, hb, hcb]
  · rw [add_letter_msgs ctext _ ia x hl0]
    apply conflicts_eq_zero
    intro i hi
    rw [charAt_replicate _ _ _ hi]
    exact fun h => hxu h.symm
  · rw [add_letter_msgs ctext _ ib x hl1]
    exact conflicts_pos ctext _ _ x ctext.length ia hia hx (h1 ia hia ha) (by rw [ha, hb]; exact hab)

theorem conflict_eviction_witness :
    (0 < [113, 112, 113].length ∧ 1 < [113, 112, 113].length ∧
      charAt [113, 112, 113] 0 = 113 ∧ charAt [113, 112, 113] 1 = 112 ∧ (113 : Nat) ≠ 112 ∧
      120 ≠ SPACE ∧ (120 : Nat) ≠ 0) ∧
    ((∀ i, i < [113, 112, 113].length → charAt [113, 112, 113] i = 113 →
      charAt (add_letter [113, 112, 113]
        (add_letter [113, 112, 113] (List.replicate [113, 112, 113].length 0) 0 120).1 1 120).1 i
        = SPACE) ∧
    (∀ i, i < [113, 112, 113].length → charAt [113, 112, 113] i = 112 →
      charAt (add_letter [113, 112, 113]
        (add_letter [113, 112, 113] (List.replicate [113, 112, 113].length 0) 0 120).1 1 120).1 i
        = 120) ∧
    (add_letter [113, 112, 113] (List.replicate [113, 112, 113].length 0) 0 120).2 = 0 ∧
    0 < (add_letter [113, 112, 113]
      (add_letter [113, 112, 113] (List.replicate [113, 112, 113].length 0) 0 120).1 1 120).2) :=
  ⟨by decide,
    conflict_eviction [113, 112, 113] 0 113 112 120 0 1 (by decide) (by decide) (by decide)
      (by decide) (by decide) (by decide) (by decide)⟩

/-! ### Lemmas on the Caesar solver -/

theorem solve_caesar_step_length (ctext : List Nat) (shift : Nat) (cur : List Nat) (n : Nat) :
    (solve_caesar_step ctext shift cur n).length = cur.length := by
  unfold solve_caesar_step
  split_ifs <;> simp

theorem solve_caesar_step_get (ctext : List Nat) (shift : Nat) (cur : List Nat) (n i : Nat) :
    charAt (solve_caesar_step ctext shift cur n) i =
      if n = i ∧ n < cur.length ∧ isalpha (charAt ctext n) = true then rot (charAt ctext n) shift
      else charAt cur i := by
  unfold solve_caesar_step
  by_cases ha : isalpha (charAt ctext n) = true
  · simp only [ha, if_true, charAt_set, and_true]
  · simp [ha]

theorem solve_caesar_loop_spec (ctext : List Nat) (shift : Nat) (stext : List Nat) (n : Nat)
    (hn : n ≤ stext.length) :
    ((List.range n).foldl (solve_caesar_step ctext shift) stext).length = stext.length ∧
    ∀ i, charAt ((List.range n).foldl (solve_caesar_step ctext shift) stext) i =
      if i < n ∧ isalpha (charAt ctext i) = true then rot (charAt ctext i) shift
      else charAt stext i := by
  induction n with
  | zero => simp
  | succ n ih =>
    obtain ⟨hlen, hget⟩ := ih (Nat.le_of_succ_le hn)
    rw [List.range_succ, List.foldl_append]
    simp only [List.foldl_cons, List.foldl_nil]
    refine ⟨?_, ?_⟩
    · rw [solve_caesar_step_length, hlen]
    · intro i
      rw [solve_caesar_step_get, hget i, hlen]
      have hnl : n < stext.length := by omega
      by_cases hin : n = i
      · subst hin
        by_cases ha : isalpha (charAt ctext n) = true
        · simp [ha, hnl]
        · simp [ha]
      · have h1 : (i < n + 1) ↔ (i < n) := by omega
        simp [hin, h1]

theorem solve_caesar_get (ctext stext : List Nat) (idx : Nat)
    (hlen : stext.length = ctext.length) (hg : charAt stext idx ≠ SPACE) (i : Nat) :
    charAt (solve_caesar ctext stext idx) i =
      if i < ctext.length ∧ isalpha (charAt ctext i) = true then
        rot (charAt ctext i) (caesar_shift (charAt ctext idx) (charAt stext idx))
      else charAt stext i := by
  unfold solve_caesar
  rw [if_neg hg]
  exact (solve_caesar_loop_spec ctext _ stext ctext.length (by omega)).2 i

theorem charAt_map (f : Nat → Nat) (l : List Nat) (i : Nat) (hi : i < l.length) :
    charAt (l.map f) i = f (charAt l i) := by
  simp [charAt, List.getD_eq_getElem?_getD, List.getElem?_eq_getElem, hi]

theorem charAt_mem (l : List Nat) (i : Nat) (hi : i < l.length) : charAt l i ∈ l := by
  simp [charAt, List.getD_eq_getElem?_getD, List.getElem?_eq_getElem, hi]

theorem isupper_fin (ch : Nat) (h : isupper ch = true) : ∃ P : Fin 26, ch = 65 + P.val := by
  simp only [isupper, Bool.and_eq_true, decide_eq_true_eq] at h
  exact ⟨⟨ch - 65, by omega⟩, by simp; omega⟩

theorem isupper_of_isalpha_rotate (s ch : Nat) (h : isupper ch = true ∨ isalpha ch = false)
    (ha : isalpha (rotate_forward s ch) = true) : isupper ch = true := by
  by_cases hu : isupper ch = true
  · exact hu
  · rcases h with h | h
    · exact h
    · simp [rotate_forward, hu, h] at ha

/-- The shift derived from an enciphered upper-case letter and its plaintext
letter, in either case, is `26 - s`. -/
theorem caesar_shift_rotate : ∀ P s : Fin 26,
    caesar_shift (rotate_forward s.val (65 + P.val)) (65 + P.val) = 26 - s.val ∧
    caesar_shift (rotate_forward s.val (65 + P.val)) (65 + P.val + 32) = 26 - s.val := by
  decide

/-- The code's rotation by `26 - s` undoes the enciphering, as does
`rotate_back`. -/
theorem rot_rotate : ∀ P s : Fin 26,
    rot (rotate_forward s.val (65 + P.val)) (26 - s.val) = 65 + P.val ∧
    rotate_back s.val (rotate_forward s.val (65 + P.val)) = 65 + P.val := by
  decide

/-! ### Claims on the Caesar solver -/

/-- C5 (Caesar round-trip).  Let `s < 26`, let the plaintext consist of
upper-case letters and non-letters, and let the ciphertext be the plaintext
with every letter rotated forward by `s`.  If the cursor is on a letter of the
ciphertext and the solution buffer holds the true plaintext letter there, in
upper or lower case, then after `solve_caesar` every alphabetic position holds
the ciphertext letter rotated back by `s`, which is the plaintext letter. -/
theorem caesar_round_trip (s : Nat) (hs : s < 26) (pt stext : List Nat) (cursor : Nat)
    (hpt : ∀ ch ∈ pt, isupper ch = true ∨ isalpha ch = false)
    (hlen : stext.length = pt.length) (hcur : cursor < pt.length)
    (hletter : isalpha (charAt (pt.map (rotate_forward s)) cursor) = true)
    (hguess : charAt stext cursor = charAt pt cursor ∨
      charAt stext cursor = charAt pt cursor + 32) :
    ∀ i, i < pt.length → isalpha (charAt (pt.map (rotate_forward s)) i) = true →
      charAt (solve_caesar (pt.map (rotate_forward s)) stext cursor) i =
        rotate_back s (charAt (pt.map (rotate_forward s)) i) ∧
      charAt (solve_caesar (pt.map (rotate_forward s)) stext cursor) i = charAt pt i := by
  intro i hi hai
  rw [charAt_map _ _ _ hcur] at hletter
  have hupc := isupper_of_isalpha_rotate s _ (hpt _ (charAt_mem pt cursor hcur)) hletter
  obtain ⟨Pc, hPc⟩ := isupper_fin _ hupc
  have hgne : charAt stext cursor ≠ SPACE := by
    have := Pc.isLt
    rcases hguess with h | h <;> rw [h, hPc] <;> simp only [SPACE] <;> omega
  have hshift : caesar_shift (charAt (pt.map (rotate_forward s)) cursor) (charAt stext cursor)
      = 26 - s := by
    rw [charAt_map _ _ _ hcur]
    have h := caesar_shift_rotate Pc ⟨s, hs⟩
    rcases hguess with hg | hg <;> rw [hg, hPc]
    · exact h.1
    · exact h.2
  have hlen2 : stext.length = (pt.map (rotate_forward s)).length := by simpa using hlen
  have hi2 : i < (pt.map (rotate_forward s)).length := by simpa using hi
  rw [solve_caesar_get _ stext cursor hlen2 hgne i, if_pos ⟨hi2, hai⟩, hshift]
  rw [charAt_map _ _ _ hi] at hai ⊢
  have hupi := isupper_of_isalpha_rotate s _ (hpt _ (charAt_mem pt i hi)) hai
  obtain ⟨Pi, hPi⟩ := isupper_fin _ hupi
  have h := rot_rotate Pi ⟨s, hs⟩
  rw [hPi]
  exact ⟨h.1.trans h.2.symm, h.1⟩

theorem caesar_round_trip_witness :
    (2 < 26 ∧ (∀ ch ∈ [87, 72, 65, 84, 32, 73, 83], isupper ch = true ∨ isalpha ch = false) ∧
      [0, 0, 0, 116, 0, 0, 0].length = [87, 72, 65, 84, 32, 73, 83].length ∧
      3 < [87, 72, 65, 84, 32, 73, 83].length ∧
      isalpha (charAt ([87, 72, 65, 84, 32, 73, 83].map (rotate_forward 2)) 3) = true) ∧
    ∀ i, i < [87, 72, 65, 84, 32, 73, 83].length →
      isalpha (charAt ([87, 72, 65, 84, 32, 73, 83].map (rotate_forward 2)) i) = true →
      charAt (solve_caesar ([87, 72, 65, 84, 32, 73, 83].map (rotate_forward 2))
          [0, 0, 0, 116, 0, 0, 0] 3) i =
        rotate_back 2 (charAt ([87, 72, 65, 84, 32, 73, 83].map (rotate_forward 2)) i) ∧
      charAt (solve_caesar ([87, 72, 65, 84, 32, 73, 83].map (rotate_forward 2))
          [0, 0, 0, 116, 0, 0, 0] 3) i = charAt [87, 72, 65, 84, 32, 73, 83] i :=
  ⟨by decide,
    caesar_round_trip 2 (by decide) [87, 72, 65, 84, 32, 73, 83] [0, 0, 0, 116, 0, 0, 0] 3
      (by decide) (by decide) (by decide) (by decide) (by decide)⟩

/-- C6, as stated, fails.  On the ciphertext `"yjcv ku"` with `'t'` at index 0
the value passed to `rot` is 245 (not a rotation by 2) and `solve_caesar`
writes `"PATM BL"`: index 0 holds `'P'`, not `'t'`, and the buffer is not
`"this is"`. -/
theorem caesar_scenario_lowercase_fails :
    caesar_shift 121 116 = 245 ∧
    solve_caesar [121, 106, 99, 118, 32, 107, 117] [116, 32, 32, 32, 32, 32, 32] 0 =
      [80, 65, 84, 77, 32, 66, 76] ∧
    solve_caesar [121, 106, 99, 118, 32, 107, 117] [116, 32, 32, 32, 32, 32, 32] 0 ≠
      [116, 104, 105, 115, 32, 105, 115] := by
  decide

/-- C6, amended.  On the upper-case ciphertext `"YJCV KU"` with `'w'` at index
0 and any values in the other cells, `solve_caesar` at cursor 0 derives the
rotation `26 - 2` (the text is shifted by 2) and writes `"WHAT IS"`: `W,H,A,T`
at indices 0-3 and `I,S` at indices 5-6; index 4 (the space) keeps its value. -/
theorem caesar_scenario_uppercase (x1 x2 x3 x4 x5 x6 : Nat) :
    caesar_shift 89 119 = 26 - 2 ∧
    solve_caesar [89, 74, 67, 86, 32, 75, 85] [119, x1, x2, x3, x4, x5, x6] 0 =
      [87, 72, 65, 84, x4, 73, 83] := by
  refine ⟨by decide, ?_⟩
  simp [solve_caesar, charAt, SPACE, List.range, List.range.loop, solve_caesar_step, isalpha,
    isupper, islower]
  decide

/-- C7, as stated, fails.  On the ciphertext `" AB"` with the zero-filled
(all unset) solution buffer and the cursor at index 0, the ciphertext
character under the cursor is a space and the solution buffer holds no letter
there, yet `solve_caesar` rewrites the buffer to `[0, 'Q', 'R']`. -/
theorem caesar_noop_fails :
    0 < [32, 65, 66].length ∧
    isalpha (charAt [32, 65, 66] 0) = false ∧ charAt [32, 65, 66] 0 = SPACE ∧
    isalnum (charAt [0, 0, 0] 0) = false ∧
    solve_caesar [32, 65, 66] [0, 0, 0] 0 = [0, 81, 82] ∧
    solve_caesar [32, 65, 66] [0, 0, 0] 0 ≠ [0, 0, 0] := by
  decide

/-- C7, amended.  For every ciphertext, solution buffer and cursor index
inside the ciphertext, if the solution buffer holds the blank symbol `' '` at
the cursor then `solve_caesar` leaves the whole solution buffer unchanged. -/
theorem caesar_noop_on_blank (ctext stext : List Nat) (cursor : Nat)
    (_hcur : cursor < ctext.length) (hblank : charAt stext cursor = SPACE) :
    solve_caesar ctext stext cursor = stext := by
  unfold solve_caesar
  rw [if_pos hblank]

theorem caesar_noop_on_blank_witness :
    (1 < [65, 66, 67].length ∧ charAt [120, 32, 0] 1 = SPACE) ∧
    solve_caesar [65, 66, 67] [120, 32, 0] 1 = [120, 32, 0] :=
  ⟨by decide, caesar_noop_on_blank [65, 66, 67] [120, 32, 0] 1 (by decide) (by decide)⟩

/-! ### Lemmas on the layout engine -/

theorem charAt_of_le (s : List Nat) (i : Nat) (h : s.length ≤ i) : charAt s i = 0 := by
  have hnone : s[i]? = none := List.getElem?_eq_none h
  simp [charAt, List.getD_eq_getElem?_getD, hnone]

/-- The invariant of the loop of `get_row_markers`: positions before `i` are
not touched any more, and each position from `i` on receives the ciphertext
character or, on a space, the row marker. -/
theorem get_row_markers_loop_spec (ctext : List Nat) (rowlen : Nat) :
    ∀ (fuel i ccol : Nat) (mtext : List Nat), mtext.length = ctext.length →
      ctext.length ≤ i + fuel →
      (get_row_markers_loop ctext rowlen fuel i ccol mtext).length = ctext.length ∧
      (∀ j, j < i → charAt (get_row_markers_loop ctext rowlen fuel i ccol mtext) j
        = charAt mtext j) ∧
      (∀ j, i ≤ j → j < ctext.length →
        charAt (get_row_markers_loop ctext rowlen fuel i ccol mtext) j = charAt ctext j ∨
        (charAt ctext j = SPACE ∧
          charAt (get_row_markers_loop ctext rowlen fuel i ccol mtext) j = NEWLINE)) := by
  intro fuel
  induction fuel with
  | zero =>
    intro i ccol mtext hlen hfuel
    refine ⟨by simpa [get_row_markers_loop] using hlen, fun j _ => by simp [get_row_markers_loop],
      ?_⟩
    intro j hij hj
    omega
  | succ fuel ih =>
    intro i ccol mtext hlen hfuel
    unfold get_row_markers_loop
    by_cases hi : i < ctext.length
    · rw [if_pos hi]
      by_cases hw : charAt ctext i = SPACE ∧
          u32add ccol (u32sub (get_next_space ctext ctext.length i) i) > rowlen
      · rw [if_pos hw]
        obtain ⟨h1, h2, h3⟩ := ih (i + 1 + 1) (0 + 1)
          ((mtext.set i NEWLINE).set (i + 1) (charAt ctext (i + 1))) (by simp [hlen]) (by omega)
        refine ⟨h1, ?_, ?_⟩
        · intro j hj
          rw [h2 j (by omega), charAt_set, charAt_set]
          have e1 : ¬ (i + 1 = j ∧ i + 1 < (mtext.set i NEWLINE).length) := by omega
          have e2 : ¬ (i = j ∧ i < mtext.length) := by omega
          rw [if_neg e1, if_neg e2]
        · intro j hij hj
          by_cases hji : j = i
          · subst hji
            right
            refine ⟨hw.1, ?_⟩
            rw [h2 j (by omega), charAt_set, charAt_set]
            have e1 : ¬ (j + 1 = j ∧ j + 1 < (mtext.set j NEWLINE).length) := by omega
            have e2 : (j = j ∧ j < mtext.length) := ⟨rfl, by omega⟩
            rw [if_neg e1, if_pos e2]
          · by_cases hji1 : j = i + 1
            · subst hji1
              left
              rw [h2 (i + 1) (by omega), charAt_set]
              have e1 : (i + 1 = i + 1 ∧ i + 1 < (mtext.set i NEWLINE).length) :=
                ⟨rfl, by simp; omega⟩
              rw [if_pos e1]
            · exact h3 j (by omega) hj
      · rw [if_neg hw]
        obtain ⟨h1, h2, h3⟩ := ih (i + 1) (ccol + 1) (mtext.set i (charAt ctext i))
          (by simp [hlen]) (by omega)
        refine ⟨h1, ?_, ?_⟩
        · intro j hj
          rw [h2 j (by omega), charAt_set]
          have e2 : ¬ (i = j ∧ i < mtext.length) := by omega
          rw [if_neg e2]
        · intro j hij hj
          by_cases hji : j = i
          · subst hji
            left
            rw [h2 j (by omega), charAt_set]
            have e2 : (j = j ∧ j < mtext.length) := ⟨rfl, by omega⟩
            rw [if_pos e2]
          · exact h3 j (by omega) hj
    · rw [if_neg hi]
      refine ⟨hlen, fun j _ => rfl, ?_⟩
      intro j hij hj
      omega

/-! ### Claims on the layout engine -/

/-- C10 (layout word-integrity).  For every ciphertext and every row width the
marker text of `get_row_markers` has the length of the ciphertext; wherever it
differs from the ciphertext, the ciphertext holds a space and the marker text
a newline; so every non-space character is copied unchanged and a newline of
the marker text stands on a ciphertext space (or is a newline that the
ciphertext itself holds there): no row break is put inside a word. -/
theorem row_markers_word_integrity (ctext : List Nat) (rowlen : Nat) :
    (get_row_markers ctext rowlen).length = ctext.length ∧
    (∀ i, charAt (get_row_markers ctext rowlen) i ≠ charAt ctext i →
      charAt ctext i = SPACE ∧ charAt (get_row_markers ctext rowlen) i = NEWLINE) ∧
    (∀ i, i < ctext.length → charAt ctext i ≠ SPACE →
      charAt (get_row_markers ctext rowlen) i = charAt ctext i) ∧
    (∀ i, charAt (get_row_markers ctext rowlen) i = NEWLINE →
      charAt ctext i = SPACE ∨ charAt ctext i = NEWLINE) := by
  obtain ⟨h1, _, h3⟩ := get_row_markers_loop_spec ctext rowlen ctext.length 0 0
    (List.replicate ctext.length SPACE) (by simp) (by omega)
  have hcases : ∀ i, charAt (get_row_markers ctext rowlen) i = charAt ctext i ∨
      (charAt ctext i = SPACE ∧ charAt (get_row_markers ctext rowlen) i = NEWLINE) := by
    intro i
    by_cases hi : i < ctext.length
    · exact h3 i (Nat.zero_le i) hi
    · left
      rw [charAt_of_le ctext i (by omega), charAt_of_le _ i (by unfold get_row_markers; omega)]
  refine ⟨h1, ?_, ?_, ?_⟩
  · intro i hne
    rcases hcases i with h | h
    · exact absurd h hne
    · exact h
  · intro i _ hns
    rcases hcases i with h | h
    · exact h
    · exact absurd h.1 hns
  · intro i hnl
    rcases hcases i with h | h
    · right
      rw [← h, hnl]
    · left
      exact h.1

/-! ### Lemmas on Left and Right -/

theorem move_left_le (ctext : List Nat) : ∀ c, move_left ctext c ≤ c := by
  intro c
  induction c with
  | zero => simp [move_left]
  | succ c ih =>
    unfold move_left
    split_ifs
    · omega
    · omega

theorem move_left_found (ctext : List Nat) : ∀ c j, j < c →
    isalnum (charAt ctext j) = true →
    (∀ k, j < k → k < c → isalnum (charAt ctext k) = false) → move_left ctext c = j := by
  intro c
  induction c with
  | zero => intro j hj; omega
  | succ c ih =>
    intro j hj haj hbetween
    unfold move_left
    by_cases hjc : j = c
    · subst hjc
      have : ¬ (isalnum (charAt ctext j) = false ∧ j > 0) := by simp [haj]
      rw [if_neg this]
    · have hc : isalnum (charAt ctext c) = false := hbetween c (by omega) (by omega)
      have : isalnum (charAt ctext c) = false ∧ c > 0 := ⟨hc, by omega⟩
      rw [if_pos this]
      exact ih j (by omega) haj (fun k h1 h2 => hbetween k h1 (by omega))

theorem move_left_none (ctext : List Nat) : ∀ c,
    (∀ j, j < c → isalnum (charAt ctext j) = false) → move_left ctext c = 0 := by
  intro c
  induction c with
  | zero => intro _; simp [move_left]
  | succ c ih =>
    intro hnone
    unfold move_left
    by_cases hc : c > 0
    · have : isalnum (charAt ctext c) = false ∧ c > 0 := ⟨hnone c (by omega), hc⟩
      rw [if_pos this]
      exact ih (fun j hj => hnone j (by omega))
    · have : ¬ (isalnum (charAt ctext c) = false ∧ c > 0) := fun h => hc h.2
      rw [if_neg this]
      omega

theorem move_left_alnum_or_zero (ctext : List Nat) : ∀ c,
    isalnum (charAt ctext (move_left ctext c)) = true ∨ move_left ctext c = 0 := by
  intro c
  induction c with
  | zero => right; simp [move_left]
  | succ c ih =>
    unfold move_left
    by_cases h : isalnum (charAt ctext c) = false ∧ c > 0
    · rw [if_pos h]
      exact ih
    · rw [if_neg h]
      by_cases hc : c > 0
      · left
        by_cases ha : isalnum (charAt ctext c) = true
        · exact ha
        · exact absurd ⟨by simpa using ha, hc⟩ h
      · right
        omega

theorem move_right_loop_le (ctext : List Nat) (last : Nat) : ∀ fuel c, c < last →
    last ≤ c + fuel →
    c < move_right_loop ctext last fuel c ∧ move_right_loop ctext last fuel c ≤ last := by
  intro fuel
  induction fuel with
  | zero => intro c h1 h2; omega
  | succ fuel ih =>
    intro c h1 h2
    unfold move_right_loop
    by_cases h : isalnum (charAt ctext (c + 1)) = false ∧ c + 1 < last
    · rw [if_pos h]
      have := ih (c + 1) h.2 (by omega)
      omega
    · rw [if_neg h]
      omega

theorem move_right_loop_found (ctext : List Nat) (last : Nat) : ∀ fuel c j, c < last →
    last ≤ c + fuel → c < j → j ≤ last → isalnum (charAt ctext j) = true →
    (∀ k, c < k → k < j → isalnum (charAt ctext k) = false) →
    move_right_loop ctext last fuel c = j := by
  intro fuel
  induction fuel with
  | zero => intro c j h1 h2; omega
  | succ fuel ih =>
    intro c j h1 h2 hcj hjl haj hbetween
    unfold move_right_loop
    by_cases hj : j = c + 1
    · subst hj
      have : ¬ (isalnum (charAt ctext (c + 1)) = false ∧ c + 1 < last) := by simp [haj]
      rw [if_neg this]
    · have hc : isalnum (charAt ctext (c + 1)) = false := hbetween (c + 1) (by omega) (by omega)
      have : isalnum (charAt ctext (c + 1)) = false ∧ c + 1 < last := ⟨hc, by omega⟩
      rw [if_pos this]
      exact ih (c + 1) j (by omega) (by omega) (by omega) hjl haj
        (fun k hk1 hk2 => hbetween k (by omega) hk2)

theorem move_right_loop_none (ctext : List Nat) (last : Nat) : ∀ fuel c, c < last →
    last ≤ c + fuel → (∀ k, c < k → k ≤ last → isalnum (charAt ctext k) = false) →
    move_right_loop ctext last fuel c = last := by
  intro fuel
  induction fuel with
  | zero => intro c h1 h2; omega
  | succ fuel ih =>
    intro c h1 h2 hnone
    unfold move_right_loop
    by_cases h : c + 1 < last
    · have : isalnum (charAt ctext (c + 1)) = false ∧ c + 1 < last :=
        ⟨hnone (c + 1) (by omega) (by omega), h⟩
      rw [if_pos this]
      exact ih (c + 1) h (by omega) (fun k hk1 hk2 => hnone k (by omega) hk2)
    · have : ¬ (isalnum (charAt ctext (c + 1)) = false ∧ c + 1 < last) := fun h2 => h h2.2
      rw [if_neg this]
      omega

theorem move_right_loop_alnum_or_last (ctext : List Nat) (last : Nat) : ∀ fuel c, c < last →
    last ≤ c + fuel →
    isalnum (charAt ctext (move_right_loop ctext last fuel c)) = true ∨
      move_right_loop ctext last fuel c = last := by
  intro fuel
  induction fuel with
  | zero => intro c h1 h2; omega
  | succ fuel ih =>
    intro c h1 h2
    unfold move_right_loop
    by_cases h : isalnum (charAt ctext (c + 1)) = false ∧ c + 1 < last
    · rw [if_pos h]
      exact ih (c + 1) h.2 (by omega)
    · rw [if_neg h]
      by_cases hc : c + 1 < last
      · left
        by_cases ha : isalnum (charAt ctext (c + 1)) = true
        · exact ha
        · exact absurd ⟨by simpa using ha, hc⟩ h
      · right
        omega

theorem u32sub_one (n : Nat) (h0 : 0 < n) (hn : n < 4294967296) : u32sub n 1 = n - 1 := by
  unfold u32sub U32
  omega

/-! ### Claims on Left and Right -/

/-- C9 (Left/Right stepping).  For a non-empty ciphertext of length `n` (which
fits `uint32_t`) and a cursor `c < n`: Right sets the cursor to the smallest
index above `c` holding an alphanumeric character if there is one, and to
`n - 1` otherwise; Left sets it to the largest index below `c` holding an
alphanumeric character if there is one, and to `0` otherwise; both results lie
in `0..n-1`, Right never moves left and Left never moves right. -/
theorem left_right_stepping (ctext : List Nat) (c : Nat) (hne : 0 < ctext.length)
    (hlen : ctext.length < 4294967296) (hc : c < ctext.length) :
    (∀ j, c < j → j < ctext.length → isalnum (charAt ctext j) = true →
      (∀ k, c < k → k < j → isalnum (charAt ctext k) = false) → move_right ctext c = j) ∧
    ((∀ j, c < j → j < ctext.length → isalnum (charAt ctext j) = false) →
      move_right ctext c = ctext.length - 1) ∧
    (∀ j, j < c → isalnum (charAt ctext j) = true →
      (∀ k, j < k → k < c → isalnum (charAt ctext k) = false) → move_left ctext c = j) ∧
    ((∀ j, j < c → isalnum (charAt ctext j) = false) → move_left ctext c = 0) ∧
    (c ≤ move_right ctext c ∧ move_right ctext c < ctext.length) ∧
    move_left ctext c ≤ c := by
  have hlast := u32sub_one ctext.length hne hlen
  refine ⟨?_, ?_, move_left_found ctext c, move_left_none ctext c, ?_, move_left_le ctext c⟩
  · intro j hcj hj haj hbetween
    unfold move_right
    simp only [hlast]
    have hcl : c < ctext.length - 1 := by omega
    rw [if_pos hcl]
    exact move_right_loop_found ctext _ _ c j hcl (by omega) hcj (by omega) haj hbetween
  · intro hnone
    unfold move_right
    simp only [hlast]
    by_cases hcl : c < ctext.length - 1
    · rw [if_pos hcl]
      exact move_right_loop_none ctext _ _ c hcl (by omega)
        (fun k hk1 hk2 => hnone k hk1 (by omega))
    · rw [if_neg hcl]
      omega
  · unfold move_right
    simp only [hlast]
    by_cases hcl : c < ctext.length - 1
    · rw [if_pos hcl]
      have := move_right_loop_le ctext (ctext.length - 1) (ctext.length - 1 - c) c hcl (by omega)
      omega
    · rw [if_neg hcl]
      omega

theorem left_right_stepping_witness :
    (0 < [65, 32, 46, 66, 33].length ∧ [65, 32, 46, 66, 33].length < 4294967296 ∧
      3 < [65, 32, 46, 66, 33].length) ∧
    ((∀ j, 3 < j → j < [65, 32, 46, 66, 33].length →
        isalnum (charAt [65, 32, 46, 66, 33] j) = true →
        (∀ k, 3 < k → k < j → isalnum (charAt [65, 32, 46, 66, 33] k) = false) →
        move_right [65, 32, 46, 66, 33] 3 = j) ∧
      ((∀ j, 3 < j → j < [65, 32, 46, 66, 33].length →
        isalnum (charAt [65, 32, 46, 66, 33] j) = false) →
        move_right [65, 32, 46, 66, 33] 3 = [65, 32, 46, 66, 33].length - 1) ∧
      (∀ j, j < 3 → isalnum (charAt [65, 32, 46, 66, 33] j) = true →
        (∀ k, j < k → k < 3 → isalnum (charAt [65, 32, 46, 66, 33] k) = false) →
        move_left [65, 32, 46, 66, 33] 3 = j) ∧
      ((∀ j, j < 3 → isalnum (charAt [65, 32, 46, 66, 33] j) = false) →
        move_left [65, 32, 46, 66, 33] 3 = 0) ∧
      (3 ≤ move_right [65, 32, 46, 66, 33] 3 ∧
        move_right [65, 32, 46, 66, 33] 3 < [65, 32, 46, 66, 33].length) ∧
      move_left [65, 32, 46, 66, 33] 3 ≤ 3) :=
  ⟨by decide, left_right_stepping [65, 32, 46, 66, 33] 3 (by decide) (by decide) (by decide)⟩

/-! ### Lemmas on Up, Down and the render loop -/

theorem line_start_spec (mtext : List Nat) : ∀ m k,
    (line_start mtext m k).1 ≤ m ∧
    (line_start mtext m k).1 + (line_start mtext m k).2 = m + k ∧
    ((line_start mtext m k).1 = 0 ∨
      charAt mtext ((line_start mtext m k).1 - 1) = NEWLINE) := by
  intro m
  induction m with
  | zero => intro k; simp [line_start]
  | succ m ih =>
    intro k
    unfold line_start
    by_cases h : charAt mtext m ≠ NEWLINE
    · rw [if_pos h]
      obtain ⟨h1, h2, h3⟩ := ih (k + 1)
      exact ⟨by omega, by omega, h3⟩
    · rw [if_neg h]
      refine ⟨le_refl _, rfl, Or.inr ?_⟩
      simpa using h

theorem up_scan_spec (ctext : List Nat) (mpos : Nat) : ∀ off,
    up_scan ctext mpos off ≤ off ∧
    (isalnum (charAt ctext (mpos + up_scan ctext mpos off)) = true ∨
      up_scan ctext mpos off = 0) := by
  intro off
  induction off with
  | zero => simp [up_scan]
  | succ off ih =>
    unfold up_scan
    by_cases h : isalnum (charAt ctext (mpos + (off + 1))) = true
    · rw [if_pos h]
      exact ⟨le_refl _, Or.inl h⟩
    · rw [if_neg h]
      exact ⟨by omega, ih.2⟩

/-- Up lands on an alphanumeric character, or does not move, or stops on the
first index of a row above the cursor. -/
theorem move_up_spec (ctext mtext : List Nat) (c c1 : Nat)
    (h : move_up ctext mtext c = some c1) :
    isalnum (charAt ctext c1) = true ∨ c1 = c ∨
      (c1 < c ∧ (c1 = 0 ∨ charAt mtext (c1 - 1) = NEWLINE)) := by
  unfold move_up at h
  obtain ⟨l1, l2, _⟩ := line_start_spec mtext c 0
  by_cases hpos : (line_start mtext c 0).1 > 0
  · simp only [hpos, if_true] at h
    obtain ⟨p1, _, p3⟩ := line_start_spec mtext ((line_start mtext c 0).1 - 1) 0
    split_ifs at h
    all_goals
      simp only [Option.some.injEq] at h
      subst h
    · rcases (up_scan_spec ctext (line_start mtext ((line_start mtext c 0).1 - 1) 0).1
        (line_start mtext ((line_start mtext c 0).1 - 1) 0).2).2 with hs | hs
      · exact Or.inl hs
      · right; right
        rw [hs]
        exact ⟨by omega, p3⟩
    · rcases (up_scan_spec ctext (line_start mtext ((line_start mtext c 0).1 - 1) 0).1
        (line_start mtext c 0).2).2 with hs | hs
      · exact Or.inl hs
      · right; right
        rw [hs]
        exact ⟨by omega, p3⟩
  · simp only [hpos, if_false] at h
    split_ifs at h
    simp only [Option.some.injEq] at h
    right; left
    omega

theorem u32add_succ (mpos off : Nat) (h : u32add mpos off + 1 < 4294967296) :
    u32add mpos (u32add off 1) = u32add mpos off + 1 := by
  unfold u32add U32 at *
  omega

/-- With enough fuel the scan of Down stops at its exit condition. -/
theorem down_scan_exit (ctext : List Nat) (tlen mpos : Nat) (htlen : tlen < 4294967296) :
    ∀ fuel off, (u32add mpos off < tlen → tlen ≤ u32add mpos off + fuel) →
      ¬ (u32add mpos (down_scan ctext tlen mpos fuel off) < tlen ∧
        isalnum (charAt ctext (u32add mpos (down_scan ctext tlen mpos fuel off))) = false) := by
  intro fuel
  induction fuel with
  | zero =>
    intro off hf
    unfold down_scan
    intro hc
    have := hf hc.1
    omega
  | succ fuel ih =>
    intro off hf
    unfold down_scan
    by_cases hc : u32add mpos off < tlen ∧ isalnum (charAt ctext (u32add mpos off)) = false
    · rw [if_pos hc]
      apply ih
      have hs := u32add_succ mpos off (by omega)
      rw [hs]
      intro _
      have := hf hc.1
      omega
    · rw [if_neg hc]
      exact hc

theorem down_finish (ctext : List Nat) (tlen mpos off c : Nat) (htlen : tlen < 4294967296) :
    isalnum (charAt ctext
      (if u32add mpos (down_scan ctext tlen mpos tlen off) < tlen then
        u32add mpos (down_scan ctext tlen mpos tlen off) else c)) = true ∨
    (if u32add mpos (down_scan ctext tlen mpos tlen off) < tlen then
        u32add mpos (down_scan ctext tlen mpos tlen off) else c) = c := by
  have hex := down_scan_exit ctext tlen mpos htlen tlen off (fun _ => by omega)
  by_cases h : u32add mpos (down_scan ctext tlen mpos tlen off) < tlen
  · rw [if_pos h]
    left
    by_cases ha : isalnum (charAt ctext (u32add mpos (down_scan ctext tlen mpos tlen off))) = true
    · exact ha
    · exact absurd ⟨h, by simpa using ha⟩ hex
  · rw [if_neg h]
    right; rfl

/-- Down lands on an alphanumeric character or does not move. -/
theorem move_down_spec (ctext mtext : List Nat) (c : Nat) (hlen : ctext.length < 4294967296) :
    isalnum (charAt ctext (move_down ctext mtext c)) = true ∨ move_down ctext mtext c = c := by
  unfold move_down
  exact down_finish ctext ctext.length _ _ c hlen

/-- One step of the render loop keeps the cursor or puts it on an
alphanumeric character. -/
theorem render_step_cursor (ctext : List Nat) (mrow mcol mouserow mousecol i : Nat)
    (rs : RenderState) (next : Nat × RenderState)
    (h : render_step ctext mrow mcol mouserow mousecol i rs = some next) :
    next.2.cursor_pos = rs.cursor_pos ∨ isalnum (charAt ctext next.2.cursor_pos) = true := by
  unfold render_step at h
  simp only [] at h
  split_ifs at h
  all_goals
    simp only [Option.some.injEq] at h
    subst h
    first
      | exact Or.inl rfl
      | (right; simp_all)

theorem render_loop_cursor (ctext : List Nat) (mrow mcol mouserow mousecol : Nat) :
    ∀ (fuel i : Nat) (rs rs1 : RenderState),
      render_loop ctext mrow mcol mouserow mousecol fuel i rs = some rs1 →
      rs1.cursor_pos = rs.cursor_pos ∨ isalnum (charAt ctext rs1.cursor_pos) = true := by
  intro fuel
  induction fuel with
  | zero =>
    intro i rs rs1 h
    simp only [render_loop, Option.some.injEq] at h
    subst h
    left; rfl
  | succ fuel ih =>
    intro i rs rs1 h
    unfold render_loop at h
    by_cases hi : i < ctext.length
    · rw [if_pos hi] at h
      cases hstep : render_step ctext mrow mcol mouserow mousecol i rs with
      | none => rw [hstep] at h; exact absurd h (by simp)
      | some next =>
        rw [hstep] at h
        simp only [] at h
        rcases ih next.1 next.2 rs1 h with h1 | h1
        · rcases render_step_cursor ctext mrow mcol mouserow mousecol i rs next hstep with h2 | h2
          · left; rw [h1, h2]
          · right; rw [h1]; exact h2
        · right; exact h1
    · rw [if_neg hi] at h
      simp only [Option.some.injEq] at h
      subst h
      left; rfl

/-- A pass of `display` ends with the cursor that the action left, or with
the cursor on an alphanumeric character. -/
theorem display_pass_cursor (ctext : List Nat) (mrow mcol : Nat) (st : PuzzleState)
    (act : Action) (fr : Frame) (h : display_pass ctext mrow mcol st act = some fr) :
    ∃ pa, process_action ctext mcol st act = some pa ∧
      (fr.cursor_pos = pa.1.cursor_pos ∨ isalnum (charAt ctext fr.cursor_pos) = true) := by
  unfold display_pass at h
  cases hpa : process_action ctext mcol st act with
  | none => rw [hpa] at h; exact absurd h (by simp)
  | some pa =>
    rw [hpa] at h
    obtain ⟨st1, msgs, mouserow, mousecol⟩ := pa
    simp only [] at h
    cases hr : render_loop ctext mrow mcol mouserow mousecol ctext.length 0
        { crow := rowspace, ccol := pad, cursor_pos := st1.cursor_pos,
          cursor_row := 0, cursor_col := 0, breaks := [] } with
    | none => rw [hr] at h; exact absurd h (by simp)
    | some rs =>
      rw [hr] at h
      simp only [Option.some.injEq] at h
      subst h
      exact ⟨_, rfl, render_loop_cursor ctext mrow mcol mouserow mousecol _ _ _ rs hr⟩

/-- When `display` returns, the cursor is set, and it is the cursor that the
action left, the cursor before the call, or an alphanumeric position. -/
theorem display_cursor (ctext : List Nat) (mrow mcol : Nat) (st : PuzzleState)
    (act : Action) (fr : Frame) (h : display ctext mrow mcol st act = some fr) :
    CURSOR_SET fr.cursor_pos = true ∧
    ∃ pa, process_action ctext mcol st act = some pa ∧
      (fr.cursor_pos = pa.1.cursor_pos ∨ fr.cursor_pos = st.cursor_pos ∨
        isalnum (charAt ctext fr.cursor_pos) = true) := by
  unfold display at h
  cases hp : display_pass ctext mrow mcol st act with
  | none => rw [hp] at h; exact absurd h (by simp)
  | some fr1 =>
    rw [hp] at h
    simp only [] at h
    obtain ⟨pa, hpa, hc1⟩ := display_pass_cursor ctext mrow mcol st act fr1 hp
    by_cases hset : CURSOR_SET fr1.cursor_pos = true
    · rw [if_pos hset] at h
      simp only [Option.some.injEq] at h
      subst h
      refine ⟨hset, pa, hpa, ?_⟩
      rcases hc1 with h1 | h1
      · exact Or.inl h1
      · exact Or.inr (Or.inr h1)
    · rw [if_neg hset] at h
      cases hp2 : display_pass ctext mrow mcol
          { cursor_pos := st.cursor_pos, stext := fr1.stext } Action.NONE with
      | none => rw [hp2] at h; exact absurd h (by simp)
      | some fr2 =>
        rw [hp2] at h
        simp only [] at h
        by_cases hset2 : CURSOR_SET fr2.cursor_pos = true
        · rw [if_pos hset2] at h
          simp only [Option.some.injEq] at h
          subst h
          obtain ⟨pa2, hpa2, hc2⟩ := display_pass_cursor ctext mrow mcol _ _ fr2 hp2
          simp only [process_action, Option.some.injEq] at hpa2
          subst hpa2
          refine ⟨hset2, pa, hpa, ?_⟩
          rcases hc2 with h2 | h2
          · exact Or.inr (Or.inl h2)
          · exact Or.inr (Or.inr h2)
        · rw [if_neg hset2] at h
          exact absurd h (by simp)

/-! ### Claims on cursor validity -/

/-- C8, as stated, fails for Left, Right and Up.  In each case the cursor
starts on an alphanumeric character, `display` returns, and the cursor ends on
a different index whose character is not alphanumeric: Left on `" A"` from
index 1 stops at the space at index 0; Right on `"A."` from index 0 stops at
the full stop at index 1; Up on `"-- ab"` in a terminal 26 columns wide (rows
`"--"` and `"ab"`) from index 3 stops at the hyphen at index 0. -/
theorem cursor_validity_fails :
    (isalnum (charAt [32, 65] 1) = true ∧
      (display [32, 65] 24 80 { cursor_pos := 1, stext := [0, 0] }
        (Action.MOVE_CURSOR Direction.DIR_LEFT)).map (fun fr => fr.cursor_pos) = some 0 ∧
      isalnum (charAt [32, 65] 0) = false) ∧
    (isalnum (charAt [65, 46] 0) = true ∧
      (display [65, 46] 24 80 { cursor_pos := 0, stext := [0, 0] }
        (Action.MOVE_CURSOR Direction.DIR_RIGHT)).map (fun fr => fr.cursor_pos) = some 1 ∧
      isalnum (charAt [65, 46] 1) = false) ∧
    (isalnum (charAt [45, 45, 32, 97, 98] 3) = true ∧
      get_row_markers [45, 45, 32, 97, 98] (u32sub 26 (2 * pad) / 2) = [45, 45, 10, 97, 98] ∧
      (display [45, 45, 32, 97, 98] 24 26 { cursor_pos := 3, stext := [0, 0, 0, 0, 0] }
        (Action.MOVE_CURSOR Direction.DIR_UP)).map (fun fr => fr.cursor_pos) = some 0 ∧
      isalnum (charAt [45, 45, 32, 97, 98] 0) = false) := by
  decide

/-- C8, amended.  Let the ciphertext be non-empty (with a length that fits
`uint32_t`) and let the cursor address an alphanumeric position.  Whenever
`display` returns from a Down move or from a click, the cursor addresses an
alphanumeric position or equals the cursor before the action.  After a Left
move the same holds unless the cursor is clamped at index 0, after a Right
move unless it is clamped at the last index, and after an Up move unless it
is at the first index of a row above the old cursor (index 0 or the index
after a row marker). -/
theorem cursor_validity_amended (ctext : List Nat) (mrow mcol : Nat) (st : PuzzleState)
    (hne : 0 < ctext.length) (hlen : ctext.length < 4294967296)
    (_hcur : st.cursor_pos < ctext.length)
    (_halnum : isalnum (charAt ctext st.cursor_pos) = true) :
    (∀ fr, display ctext mrow mcol st (Action.MOVE_CURSOR Direction.DIR_DOWN) = some fr →
      isalnum (charAt ctext fr.cursor_pos) = true ∨ fr.cursor_pos = st.cursor_pos) ∧
    (∀ row col fr, display ctext mrow mcol st (Action.JUMP_CURSOR row col) = some fr →
      isalnum (charAt ctext fr.cursor_pos) = true ∨ fr.cursor_pos = st.cursor_pos) ∧
    (∀ fr, display ctext mrow mcol st (Action.MOVE_CURSOR Direction.DIR_LEFT) = some fr →
      isalnum (charAt ctext fr.cursor_pos) = true ∨ fr.cursor_pos = st.cursor_pos ∨
        fr.cursor_pos = 0) ∧
    (∀ fr, display ctext mrow mcol st (Action.MOVE_CURSOR Direction.DIR_RIGHT) = some fr →
      isalnum (charAt ctext fr.cursor_pos) = true ∨ fr.cursor_pos = st.cursor_pos ∨
        fr.cursor_pos = ctext.length - 1) ∧
    (∀ fr, display ctext mrow mcol st (Action.MOVE_CURSOR Direction.DIR_UP) = some fr →
      isalnum (charAt ctext fr.cursor_pos) = true ∨ fr.cursor_pos = st.cursor_pos ∨
        (fr.cursor_pos < st.cursor_pos ∧
          (fr.cursor_pos = 0 ∨
            charAt (get_row_markers ctext (u32sub mcol (2 * pad) / 2)) (fr.cursor_pos - 1)
              = NEWLINE))) := by
  refine ⟨?_, ?_, ?_, ?_, ?_⟩
  · intro fr h
    obtain ⟨_, pa, hpa, hc⟩ := display_cursor ctext mrow mcol st _ fr h
    simp only [process_action, Option.some.injEq] at hpa
    subst hpa
    rcases hc with h1 | h1 | h1
    · simp only [] at h1
      rw [h1]
      exact move_down_spec ctext _ st.cursor_pos hlen
    · exact Or.inr h1
    · exact Or.inl h1
  · intro row col fr h
    obtain ⟨hset, pa, hpa, hc⟩ := display_cursor ctext mrow mcol st _ fr h
    simp only [process_action, Option.some.injEq] at hpa
    subst hpa
    rcases hc with h1 | h1 | h1
    · simp only [] at h1
      rw [h1] at hset
      exact absurd hset (by decide)
    · exact Or.inr h1
    · exact Or.inl h1
  · intro fr h
    obtain ⟨_, pa, hpa, hc⟩ := display_cursor ctext mrow mcol st _ fr h
    simp only [process_action, Option.some.injEq] at hpa
    subst hpa
    rcases hc with h1 | h1 | h1
    · simp only [] at h1
      rw [h1]
      rcases move_left_alnum_or_zero ctext st.cursor_pos with h2 | h2
      · exact Or.inl h2
      · exact Or.inr (Or.inr h2)
    · exact Or.inr (Or.inl h1)
    · exact Or.inl h1
  · intro fr h
    obtain ⟨_, pa, hpa, hc⟩ := display_cursor ctext mrow mcol st _ fr h
    simp only [process_action, Option.some.injEq] at hpa
    subst hpa
    rcases hc with h1 | h1 | h1
    · simp only [] at h1
      rw [h1]
      unfold move_right
      simp only [u32sub_one ctext.length hne hlen]
      by_cases hcl : st.cursor_pos < ctext.length - 1
      · rw [if_pos hcl]
        rcases move_right_loop_alnum_or_last ctext (ctext.length - 1)
          (ctext.length - 1 - st.cursor_pos) st.cursor_pos hcl (by omega) with h2 | h2
        · exact Or.inl h2
        · exact Or.inr (Or.inr h2)
      · rw [if_neg hcl]
        exact Or.inr (Or.inl rfl)
    · exact Or.inr (Or.inl h1)
    · exact Or.inl h1
  · intro fr h
    obtain ⟨_, pa, hpa, hc⟩ := display_cursor ctext mrow mcol st _ fr h
    simp only [process_action, Option.map_eq_some'] at hpa
    obtain ⟨c1, hup, hpa⟩ := hpa
    subst hpa
    rcases hc with h1 | h1 | h1
    · simp only [] at h1
      rw [h1]
      exact move_up_spec ctext _ st.cursor_pos c1 hup
    · exact Or.inr (Or.inl h1)
    · exact Or.inl h1

theorem cursor_validity_amended_witness :
    (0 < [97, 98, 32, 99, 100, 32, 101].length ∧
      [97, 98, 32, 99, 100, 32, 101].length < 4294967296 ∧
      (PuzzleState.mk 3 [0, 0, 0, 0, 0, 0, 0]).cursor_pos < [97, 98, 32, 99, 100, 32, 101].length ∧
      isalnum (charAt [97, 98, 32, 99, 100, 32, 101]
        (PuzzleState.mk 3 [0, 0, 0, 0, 0, 0, 0]).cursor_pos) = true ∧
      (display [97, 98, 32, 99, 100, 32, 101] 24 26 (PuzzleState.mk 3 [0, 0, 0, 0, 0, 0, 0])
        (Action.MOVE_CURSOR Direction.DIR_DOWN)).map (fun fr => fr.cursor_pos) = some 6 ∧
      (display [97, 98, 32, 99, 100, 32, 101] 24 26 (PuzzleState.mk 3 [0, 0, 0, 0, 0, 0, 0])
        (Action.JUMP_CURSOR 2 12)).map (fun fr => fr.cursor_pos) = some 1 ∧
      (display [97, 98, 32, 99, 100, 32, 101] 24 26 (PuzzleState.mk 3 [0, 0, 0, 0, 0, 0, 0])
        (Action.JUMP_CURSOR 20 12)).map (fun fr => fr.cursor_pos) = some 3) ∧
    ((∀ fr, display [97, 98, 32, 99, 100, 32, 101] 24 26 (PuzzleState.mk 3 [0, 0, 0, 0, 0, 0, 0])
        (Action.MOVE_CURSOR Direction.DIR_DOWN) = some fr →
      isalnum (charAt [97, 98, 32, 99, 100, 32, 101] fr.cursor_pos) = true ∨
        fr.cursor_pos = (PuzzleState.mk 3 [0, 0, 0, 0, 0, 0, 0]).cursor_pos) ∧
    (∀ row col fr,
      display [97, 98, 32, 99, 100, 32, 101] 24 26 (PuzzleState.mk 3 [0, 0, 0, 0, 0, 0, 0])
        (Action.JUMP_CURSOR row col) = some fr →
      isalnum (charAt [97, 98, 32, 99, 100, 32, 101] fr.cursor_pos) = true ∨
        fr.cursor_pos = (PuzzleState.mk 3 [0, 0, 0, 0, 0, 0, 0]).cursor_pos) ∧
    (∀ fr, display [97, 98, 32, 99, 100, 32, 101] 24 26 (PuzzleState.mk 3 [0, 0, 0, 0, 0, 0, 0])
        (Action.MOVE_CURSOR Direction.DIR_LEFT) = some fr →
      isalnum (charAt [97, 98, 32, 99, 100, 32, 101] fr.cursor_pos) = true ∨
        fr.cursor_pos = (PuzzleState.mk 3 [0, 0, 0, 0, 0, 0, 0]).cursor_pos ∨
        fr.cursor_pos = 0) ∧
    (∀ fr, display [97, 98, 32, 99, 100, 32, 101] 24 26 (PuzzleState.mk 3 [0, 0, 0, 0, 0, 0, 0])
        (Action.MOVE_CURSOR Direction.DIR_RIGHT) = some fr →
      isalnum (charAt [97, 98, 32, 99, 100, 32, 101] fr.cursor_pos) = true ∨
        fr.cursor_pos = (PuzzleState.mk 3 [0, 0, 0, 0, 0, 0, 0]).cursor_pos ∨
        fr.cursor_pos = [97, 98, 32, 99, 100, 32, 101].length - 1) ∧
    (∀ fr, display [97, 98, 32, 99, 100, 32, 101] 24 26 (PuzzleState.mk 3 [0, 0, 0, 0, 0, 0, 0])
        (Action.MOVE_CURSOR Direction.DIR_UP) = some fr →
      isalnum (charAt [97, 98, 32, 99, 100, 32, 101] fr.cursor_pos) = true ∨
        fr.cursor_pos = (PuzzleState.mk 3 [0, 0, 0, 0, 0, 0, 0]).cursor_pos ∨
        (fr.cursor_pos < (PuzzleState.mk 3 [0, 0, 0, 0, 0, 0, 0]).cursor_pos ∧
          (fr.cursor_pos = 0 ∨
            charAt (get_row_markers [97, 98, 32, 99, 100, 32, 101] (u32sub 26 (2 * pad) / 2))
              (fr.cursor_pos - 1) = NEWLINE)))) :=
  ⟨by decide,
    cursor_validity_amended [97, 98, 32, 99, 100, 32, 101] 24 26
      (PuzzleState.mk 3 [0, 0, 0, 0, 0, 0, 0]) (by decide) (by decide) (by decide) (by decide)⟩

/-! ### The fuel of the loops is sufficient

Each of the loops below is given as many iterations as its index can still
advance; one more iteration changes nothing. -/

theorem get_next_space_loop_fuel (ctext : List Nat) (len : Nat) : ∀ fuel i, len ≤ i + fuel →
    get_next_space_loop ctext len (fuel + 1) i = get_next_space_loop ctext len fuel i := by
  intro fuel
  induction fuel with
  | zero =>
    intro i h
    have hi : ¬ i < len := by omega
    simp [get_next_space_loop, hi]
  | succ fuel ih =>
    intro i h
    rw [get_next_space_loop, get_next_space_loop.eq_def _ _ (fuel + 1) i]
    simp only []
    split_ifs
    · rfl
    · exact ih (i + 1) (by omega)
    · rfl

theorem get_row_markers_loop_fuel (ctext : List Nat) (rowlen : Nat) :
    ∀ fuel i ccol mtext, ctext.length ≤ i + fuel →
      get_row_markers_loop ctext rowlen (fuel + 1) i ccol mtext =
        get_row_markers_loop ctext rowlen fuel i ccol mtext := by
  intro fuel
  induction fuel with
  | zero =>
    intro i ccol mtext h
    have hi : ¬ i < ctext.length := by omega
    simp [get_row_markers_loop, hi]
  | succ fuel ih =>
    intro i ccol mtext h
    rw [get_row_markers_loop, get_row_markers_loop.eq_def _ _ (fuel + 1) i]
    simp only []
    split_ifs
    · exact ih _ _ _ (by omega)
    · exact ih _ _ _ (by omega)
    · rfl

theorem render_step_advances (ctext : List Nat) (mrow mcol mouserow mousecol i : Nat)
    (rs : RenderState) (next : Nat × RenderState)
    (h : render_step ctext mrow mcol mouserow mousecol i rs = some next) : i < next.1 := by
  unfold render_step at h
  simp only [] at h
  split_ifs at h
  all_goals
    simp only [Option.some.injEq] at h
    subst h
    simp only []
    omega

theorem render_loop_fuel (ctext : List Nat) (mrow mcol mouserow mousecol : Nat) :
    ∀ fuel i rs, ctext.length ≤ i + fuel →
      render_loop ctext mrow mcol mouserow mousecol (fuel + 1) i rs =
        render_loop ctext mrow mcol mouserow mousecol fuel i rs := by
  intro fuel
  induction fuel with
  | zero =>
    intro i rs h
    have hi : ¬ i < ctext.length := by omega
    simp [render_loop, hi]
  | succ fuel ih =>
    intro i rs h
    rw [render_loop, render_loop.eq_def _ _ _ _ _ (fuel + 1) i]
    simp only []
    by_cases hi : i < ctext.length
    · rw [if_pos hi, if_pos hi]
      cases hstep : render_step ctext mrow mcol mouserow mousecol i rs with
      | none => rfl
      | some next =>
        simp only []
        have := render_step_advances ctext mrow mcol mouserow mousecol i rs next hstep
        exact ih _ _ (by omega)
    · rw [if_neg hi, if_neg hi]

/-! ### Row lengths of the marker text -/

/-- C11 fails on the code: the character after a forced row break is copied
without being tested for a space.  In `"ab  cd"` (two spaces) every word has
at most 2 characters, yet with `rowlen = 2` the marker text is `"ab\n cd"`,
whose second row `" cd"` has 3 characters.  The render loop breaks rows by the
same rule, and in a terminal of 24 columns, whose row width is 2, its
assertion `ccol <= mcol - pad` fails on this text. -/
theorem row_markers_overlong_row :
    (∀ w ∈ run_lengths SPACE [97, 98, 32, 32, 99, 100], w ≤ 2) ∧
    get_row_markers [97, 98, 32, 32, 99, 100] 2 = [97, 98, 10, 32, 99, 100] ∧
    run_lengths NEWLINE (get_row_markers [97, 98, 32, 32, 99, 100] 2) = [2, 3] ∧
    ¬ (∀ r ∈ run_lengths NEWLINE (get_row_markers [97, 98, 32, 32, 99, 100] 2), r ≤ 2) ∧
    u32sub 24 (2 * pad) / 2 = 2 ∧
    render_cells [97, 98, 32, 32, 99, 100] 24 24 = none ∧
    display [97, 98, 32, 32, 99, 100] 24 24 { cursor_pos := 0, stext := [0, 0, 0, 0, 0, 0] }
      Action.NONE = none := by
  decide

/-! ### Down on the last row and Down past a row without letters -/

/-- C13 fails on the code.  The text `"ab"` is one row (the marker text holds
no newline) and the cursor is at index 0.  Down finds no next row, so
`llen = 0` and `cursor_offset = llen - 1` wraps to `UINT32_MAX`;
`mpos + cursor_offset` wraps to `tlen - 1 = 1`, which holds a letter, and the
cursor moves to index 1 instead of staying at 0. -/
theorem down_last_row_moves :
    get_row_markers [97, 98] (u32sub 80 (2 * pad) / 2) = [97, 98] ∧
    (∀ j, charAt (get_row_markers [97, 98] (u32sub 80 (2 * pad) / 2)) j ≠ NEWLINE) ∧
    u32sub 0 1 = 4294967295 ∧ u32add 2 4294967295 = 1 ∧
    move_down [97, 98] (get_row_markers [97, 98] (u32sub 80 (2 * pad) / 2)) 0 = 1 ∧
    (display [97, 98] 24 80 { cursor_pos := 0, stext := [0, 0] }
      (Action.MOVE_CURSOR Direction.DIR_DOWN)).map (fun fr => fr.cursor_pos) = some 1 := by
  refine ⟨by decide, ?_, by decide, by decide, by decide, by decide⟩
  intro j
  have h : get_row_markers [97, 98] (u32sub 80 (2 * pad) / 2) = [97, 98] := by decide
  rw [h]
  match j with
  | 0 => decide
  | 1 => decide
  | j + 2 => simp [charAt, NEWLINE]

/-- C18 fails on the code.  With 24 columns the text `"ab -- cd"` is laid out
in the three rows `"ab"`, `"--"` and `"cd"` (markers at indices 2 and 5).
Down from index 0 scans forward from the start of the second row over the
two hyphens and over the marker at index 5 and puts the cursor on index 6, in
the third row. -/
theorem down_overshoots_third_row :
    get_row_markers [97, 98, 32, 45, 45, 32, 99, 100] (u32sub 24 (2 * pad) / 2) =
      [97, 98, 10, 45, 45, 10, 99, 100] ∧
    move_down [97, 98, 32, 45, 45, 32, 99, 100]
      (get_row_markers [97, 98, 32, 45, 45, 32, 99, 100] (u32sub 24 (2 * pad) / 2)) 0 = 6 ∧
    (display [97, 98, 32, 45, 45, 32, 99, 100] 24 24
      { cursor_pos := 0, stext := [0, 0, 0, 0, 0, 0, 0, 0] }
      (Action.MOVE_CURSOR Direction.DIR_DOWN)).map (fun fr => (fr.cursor_pos, fr.breaks)) =
        some (6, [2, 5]) := by
  decide

/-! ### The Caesar shift -/

/-- The shift derived from an upper-case ciphertext letter and a guessed
letter of either case, and the letter written under the cursor. -/
theorem caesar_shift_formula : ∀ c g : Fin 26,
    ((caesar_shift (65 + c.val) (65 + g.val) : Nat) : Int) =
      26 - (((65 + c.val : Nat) : Int) - ((toupper (65 + g.val) : Nat) : Int) + 26) % 26 ∧
    ((caesar_shift (65 + c.val) (97 + g.val) : Nat) : Int) =
      26 - (((65 + c.val : Nat) : Int) - ((toupper (97 + g.val) : Nat) : Int) + 26) % 26 ∧
    rot (65 + c.val) (caesar_shift (65 + c.val) (65 + g.val)) = toupper (65 + g.val) ∧
    rot (65 + c.val) (caesar_shift (65 + c.val) (97 + g.val)) = toupper (97 + g.val) ∧
    caesar_shift (65 + c.val) (65 + g.val) < 27 ∧
    caesar_shift (65 + c.val) (97 + g.val) < 27 := by
  decide

/-- The rotation `rot` of an upper-case letter by a shift up to 26. -/
theorem rot_formula : ∀ c : Fin 26, ∀ sh : Fin 27,
    rot (65 + c.val) sh.val = 65 + (65 + c.val - 65 + sh.val) % 26 := by
  decide

theorem isalpha_cases (ch : Nat) (h : isalpha ch = true) :
    (∃ P : Fin 26, ch = 65 + P.val) ∨ (∃ P : Fin 26, ch = 97 + P.val) := by
  simp only [isalpha, isupper, islower, Bool.or_eq_true, Bool.and_eq_true,
    decide_eq_true_eq] at h
  rcases h with h | h
  · exact Or.inl ⟨⟨ch - 65, by omega⟩, by simp; omega⟩
  · exact Or.inr ⟨⟨ch - 97, by omega⟩, by simp; omega⟩

/-- C16 (Caesar shift and pointwise result).  Let every letter of the
ciphertext be upper case, let the cursor be on a letter `c` and let the
solution buffer hold a letter `g` (of either case) there.  Then the shift
used by `solve_caesar` is `26 - ((c - uppercase(g) + 26) mod 26)`, and
afterwards every position with an alphabetic ciphertext character holds
`'A' + ((ctext[i] - 'A' + shift) mod 26)`, every other position is unchanged
and the position of the cursor holds `uppercase(g)`. -/
theorem caesar_shift_pointwise (ctext stext : List Nat) (cursor : Nat)
    (hlen : stext.length = ctext.length) (hcur : cursor < ctext.length)
    (hupper : ∀ ch ∈ ctext, isalpha ch = true → isupper ch = true)
    (hc : isalpha (charAt ctext cursor) = true)
    (hg : isalpha (charAt stext cursor) = true) :
    ((caesar_shift (charAt ctext cursor) (charAt stext cursor) : Nat) : Int) =
      26 - (((charAt ctext cursor : Nat) : Int) -
        ((toupper (charAt stext cursor) : Nat) : Int) + 26) % 26 ∧
    (∀ i, i < ctext.length → isalpha (charAt ctext i) = true →
      charAt (solve_caesar ctext stext cursor) i =
        65 + (charAt ctext i - 65 +
          caesar_shift (charAt ctext cursor) (charAt stext cursor)) % 26) ∧
    (∀ i, i < ctext.length → isalpha (charAt ctext i) = false →
      charAt (solve_caesar ctext stext cursor) i = charAt stext i) ∧
    charAt (solve_caesar ctext stext cursor) cursor = toupper (charAt stext cursor) := by
  obtain ⟨Pc, hPc⟩ := isupper_fin _ (hupper _ (charAt_mem ctext cursor hcur) hc)
  have hgne : charAt stext cursor ≠ SPACE := by
    intro h
    rw [h] at hg
    exact absurd hg (by decide)
  have hget := solve_caesar_get ctext stext cursor hlen hgne
  have hform : ((caesar_shift (charAt ctext cursor) (charAt stext cursor) : Nat) : Int) =
      26 - (((charAt ctext cursor : Nat) : Int) -
        ((toupper (charAt stext cursor) : Nat) : Int) + 26) % 26 ∧
      rot (charAt ctext cursor) (caesar_shift (charAt ctext cursor) (charAt stext cursor)) =
        toupper (charAt stext cursor) ∧
      caesar_shift (charAt ctext cursor) (charAt stext cursor) < 27 := by
    rcases isalpha_cases _ hg with ⟨Pg, hPg⟩ | ⟨Pg, hPg⟩
    · rw [hPc, hPg]
      have h := caesar_shift_formula Pc Pg
      exact ⟨h.1, h.2.2.1, h.2.2.2.2.1⟩
    · rw [hPc, hPg]
      have h := caesar_shift_formula Pc Pg
      exact ⟨h.2.1, h.2.2.2.1, h.2.2.2.2.2⟩
  refine ⟨hform.1, ?_, ?_, ?_⟩
  · intro i hi hai
    rw [hget i, if_pos ⟨hi, hai⟩]
    obtain ⟨Pi, hPi⟩ := isupper_fin _ (hupper _ (charAt_mem ctext i hi) hai)
    have h := rot_formula Pi ⟨_, hform.2.2⟩
    rw [hPi]
    simpa using h
  · intro i hi hai
    rw [hget i]
    simp [hai]
  · rw [hget cursor, if_pos ⟨hcur, hc⟩]
    exact hform.2.1

theorem caesar_shift_pointwise_witness :
    ([0, 0, 0, 116].length = [89, 74, 32, 86].length ∧ 3 < [89, 74, 32, 86].length ∧
      (∀ ch ∈ [89, 74, 32, 86], isalpha ch = true → isupper ch = true) ∧
      isalpha (charAt [89, 74, 32, 86] 3) = true ∧ isalpha (charAt [0, 0, 0, 116] 3) = true) ∧
    (((caesar_shift (charAt [89, 74, 32, 86] 3) (charAt [0, 0, 0, 116] 3) : Nat) : Int) =
      26 - (((charAt [89, 74, 32, 86] 3 : Nat) : Int) -
        ((toupper (charAt [0, 0, 0, 116] 3) : Nat) : Int) + 26) % 26 ∧
    (∀ i, i < [89, 74, 32, 86].length → isalpha (charAt [89, 74, 32, 86] i) = true →
      charAt (solve_caesar [89, 74, 32, 86] [0, 0, 0, 116] 3) i =
        65 + (charAt [89, 74, 32, 86] i - 65 +
          caesar_shift (charAt [89, 74, 32, 86] 3) (charAt [0, 0, 0, 116] 3)) % 26) ∧
    (∀ i, i < [89, 74, 32, 86].length → isalpha (charAt [89, 74, 32, 86] i) = false →
      charAt (solve_caesar [89, 74, 32, 86] [0, 0, 0, 116] 3) i = charAt [0, 0, 0, 116] i) ∧
    charAt (solve_caesar [89, 74, 32, 86] [0, 0, 0, 116] 3) 3 =
      toupper (charAt [0, 0, 0, 116] 3)) :=
  ⟨by decide,
    caesar_shift_pointwise [89, 74, 32, 86] [0, 0, 0, 116] 3 (by decide) (by decide) (by decide)
      (by decide) (by decide)⟩

/-! ### Rows of the marker text and the Up/Down scans -/

theorem line_start_eq (mtext : List Nat) : ∀ m k R, RowStartOf mtext m R →
    line_start mtext m k = (R, k + (m - R)) := by
  intro m
  induction m with
  | zero =>
    intro k R h
    obtain ⟨h1, _, _⟩ := h
    have : R = 0 := by omega
    subst this
    simp [line_start]
  | succ m ih =>
    intro k R h
    obtain ⟨h1, h2, h3⟩ := h
    unfold line_start
    by_cases hR : R = m + 1
    · subst hR
      have hnl : charAt mtext m = NEWLINE := by
        rcases h2 with h2 | h2
        · omega
        · simpa using h2
      have : ¬ (charAt mtext m ≠ NEWLINE) := fun hne => hne hnl
      rw [if_neg this]
      simp
    · have hne : charAt mtext m ≠ NEWLINE := h3 m (by omega) (by omega)
      rw [if_pos hne]
      rw [ih (k + 1) R ⟨by omega, h2, fun j hj1 hj2 => h3 j hj1 (by omega)⟩]
      have : k + 1 + (m - R) = k + (m + 1 - R) := by omega
      rw [this]

theorem line_start_rowStart (mtext : List Nat) : ∀ m k,
    RowStartOf mtext m (line_start mtext m k).1 := by
  intro m
  induction m with
  | zero =>
    intro k
    refine ⟨by simp [line_start], Or.inl (by simp [line_start]), ?_⟩
    intro j _ hj
    omega
  | succ m ih =>
    intro k
    unfold line_start
    by_cases h : charAt mtext m ≠ NEWLINE
    · rw [if_pos h]
      obtain ⟨h1, h2, h3⟩ := ih (k + 1)
      refine ⟨by omega, h2, ?_⟩
      intro j hj1 hj2
      by_cases hjm : j = m
      · subst hjm
        exact h
      · exact h3 j hj1 (by omega)
    · rw [if_neg h]
      refine ⟨le_refl _, Or.inr (by simpa using h), ?_⟩
      intro j hj1 hj2
      simp only [] at hj1
      omega

theorem up_scan_stop (ctext : List Nat) (mpos off : Nat)
    (h : isalnum (charAt ctext (mpos + off)) = true) : up_scan ctext mpos off = off := by
  cases off with
  | zero => rfl
  | succ off =>
    unfold up_scan
    rw [if_pos h]

theorem next_line_start_eq (mtext : List Nat) (tlen E : Nat) (hE : E < tlen)
    (hnl : charAt mtext E = NEWLINE) : ∀ fuel mpos, 1 ≤ mpos → mpos ≤ E + 1 →
    E + 1 ≤ mpos + fuel → (∀ j, mpos - 1 ≤ j → j < E → charAt mtext j ≠ NEWLINE) →
    next_line_start mtext tlen fuel mpos = E + 1 := by
  intro fuel
  induction fuel with
  | zero =>
    intro mpos h1 h2 h3 _
    unfold next_line_start
    omega
  | succ fuel ih =>
    intro mpos h1 h2 h3 h4
    unfold next_line_start
    by_cases hc : mpos < tlen ∧ charAt mtext (mpos - 1) ≠ NEWLINE
    · rw [if_pos hc]
      have hne : mpos - 1 ≠ E := by
        intro h
        rw [h] at hc
        exact hc.2 hnl
      exact ih (mpos + 1) (by omega) (by omega) (by omega)
        (fun j hj1 hj2 => h4 j (by omega) hj2)
    · rw [if_neg hc]
      by_cases hm : mpos = E + 1
      · exact hm
      · exact absurd ⟨by omega, h4 (mpos - 1) (le_refl _) (by omega)⟩ hc

theorem line_length_ge_start (mtext : List Nat) (tlen mpos : Nat) : ∀ fuel llen,
    llen ≤ line_length mtext tlen mpos fuel llen := by
  intro fuel
  induction fuel with
  | zero => intro llen; simp [line_length]
  | succ fuel ih =>
    intro llen
    unfold line_length
    split_ifs
    · have := ih (llen + 1)
      omega
    · exact le_refl _

theorem line_length_gt (mtext : List Nat) (tlen mpos k : Nat) : ∀ fuel llen,
    k + 1 ≤ llen + fuel →
    (∀ j, mpos + llen ≤ j → j ≤ mpos + k → j < tlen ∧ charAt mtext j ≠ NEWLINE) →
    k + 1 ≤ line_length mtext tlen mpos fuel llen := by
  intro fuel
  induction fuel with
  | zero =>
    intro llen h1 _
    unfold line_length
    omega
  | succ fuel ih =>
    intro llen h1 h2
    unfold line_length
    by_cases hc : mpos + llen < tlen ∧ charAt mtext (mpos + llen) ≠ NEWLINE
    · rw [if_pos hc]
      by_cases hl : llen + 1 ≤ k + 1
      · exact ih (llen + 1) (by omega) (fun j hj1 hj2 => h2 j (by omega) hj2)
      · have := line_length_ge_start mtext tlen mpos fuel (llen + 1)
        omega
    · rw [if_neg hc]
      by_cases hl : llen ≤ k
      · exact absurd (h2 (mpos + llen) (le_refl _) (by omega)) hc
      · omega

theorem down_clamp_id (tlen mpos off : Nat) (h : u32add mpos off ≤ tlen) :
    down_clamp tlen mpos off = off := by
  cases off with
  | zero => rfl
  | succ off =>
    unfold down_clamp
    have : ¬ (u32add mpos (off + 1) > tlen) := by omega
    rw [if_neg this]

theorem down_scan_stop (ctext : List Nat) (tlen mpos fuel off : Nat)
    (h : isalnum (charAt ctext (u32add mpos off)) = true) :
    down_scan ctext tlen mpos fuel off = off := by
  cases fuel with
  | zero => rfl
  | succ fuel =>
    unfold down_scan
    have : ¬ (u32add mpos off < tlen ∧ isalnum (charAt ctext (u32add mpos off)) = false) := by
      simp [h]
    rw [if_neg this]

theorem u32add_small (a b : Nat) (h : a + b < 4294967296) : u32add a b = a + b := by
  unfold u32add U32
  omega

theorem move_up_first (ctext mtext : List Nat) (c : Nat) (h0 : RowStartOf mtext c 0) :
    move_up ctext mtext c = some c := by
  unfold move_up
  rw [line_start_eq mtext c 0 0 h0]
  simp

theorem move_up_prev (ctext mtext : List Nat) (c R s : Nat) (hR : RowStartOf mtext c R)
    (hpos : 0 < R) (hs : RowStartOf mtext (R - 1) s) :
    move_up ctext mtext c =
      some (s + up_scan ctext s (if c - R > R - 1 - s then R - 1 - s else c - R)) := by
  have hscan := (up_scan_spec ctext s (if c - R > R - 1 - s then R - 1 - s else c - R)).1
  have h1 := hR.1
  have h2 := hs.1
  have hle : s + up_scan ctext s (if c - R > R - 1 - s then R - 1 - s else c - R) ≤ c := by
    split_ifs at hscan ⊢ <;> omega
  unfold move_up
  rw [line_start_eq mtext c 0 R hR]
  simp only [Nat.zero_add, hpos, gt_iff_lt, if_true]
  rw [line_start_eq mtext (R - 1) 0 s hs]
  simp only [Nat.zero_add, gt_iff_lt]
  rw [if_pos hle]

/-- The value of the Up branch: the assertion holds, the cursor does not grow,
and when the cursor's row starts at `R > 0` the new cursor lies in the row
that ends at the marker `R - 1`. -/
theorem move_up_value (ctext mtext : List Nat) (c : Nat) :
    ∃ c1, move_up ctext mtext c = some c1 ∧ c1 ≤ c ∧
      (∀ R, RowStartOf mtext c R → 0 < R → ∀ s, RowStartOf mtext (R - 1) s →
        s ≤ c1 ∧ c1 < R) := by
  have hrow := line_start_rowStart mtext c 0
  by_cases hpos : 0 < (line_start mtext c 0).1
  · have hprev := line_start_rowStart mtext ((line_start mtext c 0).1 - 1) 0
    have hval := move_up_prev ctext mtext c _ _ hrow hpos hprev
    refine ⟨_, hval, ?_, ?_⟩
    · have hscan := (up_scan_spec ctext (line_start mtext ((line_start mtext c 0).1 - 1) 0).1
        (if c - (line_start mtext c 0).1 >
            (line_start mtext c 0).1 - 1 - (line_start mtext ((line_start mtext c 0).1 - 1) 0).1
          then (line_start mtext c 0).1 - 1 - (line_start mtext ((line_start mtext c 0).1 - 1) 0).1
          else c - (line_start mtext c 0).1)).1
      have h1 := hrow.1
      have h2 := hprev.1
      split_ifs at hscan ⊢ <;> omega
    · intro R hR hRpos s hs
      have hval2 := move_up_prev ctext mtext c R s hR hRpos hs
      rw [hval2] at hval
      simp only [Option.some.injEq] at hval
      rw [← hval]
      have hscan := (up_scan_spec ctext s (if c - R > R - 1 - s then R - 1 - s else c - R)).1
      have h1 := hR.1
      have h2 := hs.1
      split_ifs at hscan ⊢ <;> omega
  · have hz : (line_start mtext c 0).1 = 0 := by omega
    rw [hz] at hrow
    refine ⟨c, move_up_first ctext mtext c hrow, le_refl _, ?_⟩
    intro R hR hRpos
    have e1 := congrArg Prod.fst (line_start_eq mtext c 0 R hR)
    simp only [] at e1
    omega

theorem render_step_keeps (ctext : List Nat) (mrow mcol mouserow mousecol i : Nat)
    (rs : RenderState) (next : Nat × RenderState) (hset : rs.cursor_pos ≠ CURSOR_MOUSE)
    (h : render_step ctext mrow mcol mouserow mousecol i rs = some next) :
    next.2.cursor_pos = rs.cursor_pos := by
  unfold render_step at h
  simp only [] at h
  split_ifs at h
  all_goals
    simp only [Option.some.injEq] at h
    subst h
    first
      | rfl
      | simp_all

theorem render_loop_keeps (ctext : List Nat) (mrow mcol mouserow mousecol : Nat) :
    ∀ (fuel i : Nat) (rs rs1 : RenderState), rs.cursor_pos ≠ CURSOR_MOUSE →
      render_loop ctext mrow mcol mouserow mousecol fuel i rs = some rs1 →
      rs1.cursor_pos = rs.cursor_pos := by
  intro fuel
  induction fuel with
  | zero =>
    intro i rs rs1 _ h
    simp only [render_loop, Option.some.injEq] at h
    subst h
    rfl
  | succ fuel ih =>
    intro i rs rs1 hset h
    unfold render_loop at h
    by_cases hi : i < ctext.length
    · rw [if_pos hi] at h
      cases hstep : render_step ctext mrow mcol mouserow mousecol i rs with
      | none => rw [hstep] at h; exact absurd h (by simp)
      | some next =>
        rw [hstep] at h
        simp only [] at h
        have hk := render_step_keeps ctext mrow mcol mouserow mousecol i rs next hset hstep
        rw [← hk]
        exact ih next.1 next.2 rs1 (by rw [hk]; exact hset) h
    · rw [if_neg hi] at h
      simp only [Option.some.injEq] at h
      subst h
      rfl

/-- When the action leaves the cursor set, `display` returns after one render
with that cursor and the solution buffer of the action. -/
theorem display_of_set (ctext : List Nat) (mrow mcol : Nat) (st : PuzzleState) (act : Action)
    (pa : PuzzleState × Nat × Nat × Nat) (hpa : process_action ctext mcol st act = some pa)
    (hset : pa.1.cursor_pos < CURSOR_MOUSE) (fr : Frame)
    (h : display ctext mrow mcol st act = some fr) :
    fr.cursor_pos = pa.1.cursor_pos ∧ fr.stext = pa.1.stext ∧ fr.rerenders = 0 := by
  unfold display at h
  cases hp : display_pass ctext mrow mcol st act with
  | none => rw [hp] at h; exact absurd h (by simp)
  | some fr1 =>
    rw [hp] at h
    simp only [] at h
    unfold display_pass at hp
    rw [hpa] at hp
    obtain ⟨st1, msgs, mouserow, mousecol⟩ := pa
    simp only [] at hp hset
    cases hr : render_loop ctext mrow mcol mouserow mousecol ctext.length 0
        { crow := rowspace, ccol := pad, cursor_pos := st1.cursor_pos,
          cursor_row := 0, cursor_col := 0, breaks := [] } with
    | none => rw [hr] at hp; exact absurd hp (by simp)
    | some rs =>
      rw [hr] at hp
      simp only [Option.some.injEq] at hp
      have hk := render_loop_keeps ctext mrow mcol mouserow mousecol _ _ _ rs
        (by simp only []; omega) hr
      simp only [] at hk
      subst hp
      simp only [hk] at h
      have hcs : CURSOR_SET st1.cursor_pos = true := by
        simp only [CURSOR_SET, decide_eq_true_eq]
        exact hset
      rw [if_pos hcs] at h
      simp only [Option.some.injEq] at h
      subst h
      exact ⟨rfl, rfl, rfl⟩

/-! ### Claims on Up and Down -/

/-- C12 (Up on the first row is a no-op).  When no row marker stands at any
index before the cursor, the Up branch passes its assertion and leaves the
cursor where it is, and whenever `display` returns from the Up move the cursor
and the solution buffer are unchanged. -/
theorem up_first_row_noop (ctext : List Nat) (mrow mcol : Nat) (st : PuzzleState)
    (hlen : ctext.length < 4294967296) (hcur : st.cursor_pos < ctext.length)
    (hfirst : ∀ j, j < st.cursor_pos →
      charAt (get_row_markers ctext (u32sub mcol (2 * pad) / 2)) j ≠ NEWLINE) :
    move_up ctext (get_row_markers ctext (u32sub mcol (2 * pad) / 2)) st.cursor_pos =
      some st.cursor_pos ∧
    ∀ fr, display ctext mrow mcol st (Action.MOVE_CURSOR Direction.DIR_UP) = some fr →
      fr.cursor_pos = st.cursor_pos ∧ fr.stext = st.stext := by
  have h0 : RowStartOf (get_row_markers ctext (u32sub mcol (2 * pad) / 2)) st.cursor_pos 0 :=
    ⟨Nat.zero_le _, Or.inl rfl, fun j _ hj => hfirst j hj⟩
  have hup := move_up_first ctext _ st.cursor_pos h0
  refine ⟨hup, ?_⟩
  intro fr h
  have hpa : process_action ctext mcol st (Action.MOVE_CURSOR Direction.DIR_UP) =
      some ({ st with cursor_pos := st.cursor_pos }, 0, 0, 0) := by
    simp only [process_action, hup, Option.map_some']
  have := display_of_set ctext mrow mcol st _ _ hpa
    (by simp only [CURSOR_MOUSE]; omega) fr h
  exact ⟨this.1, this.2.1⟩

theorem up_first_row_noop_witness :
    ([97, 98, 32, 99, 100, 32, 101].length < 4294967296 ∧
      (PuzzleState.mk 1 [0, 0, 0, 0, 0, 0, 0]).cursor_pos < [97, 98, 32, 99, 100, 32, 101].length ∧
      get_row_markers [97, 98, 32, 99, 100, 32, 101] (u32sub 26 (2 * pad) / 2) =
        [97, 98, 10, 99, 100, 10, 101] ∧
      (display [97, 98, 32, 99, 100, 32, 101] 24 26 (PuzzleState.mk 1 [0, 0, 0, 0, 0, 0, 0])
        (Action.MOVE_CURSOR Direction.DIR_UP)).map (fun fr => fr.cursor_pos) = some 1) ∧
    (move_up [97, 98, 32, 99, 100, 32, 101]
        (get_row_markers [97, 98, 32, 99, 100, 32, 101] (u32sub 26 (2 * pad) / 2))
        (PuzzleState.mk 1 [0, 0, 0, 0, 0, 0, 0]).cursor_pos =
      some (PuzzleState.mk 1 [0, 0, 0, 0, 0, 0, 0]).cursor_pos ∧
    ∀ fr, display [97, 98, 32, 99, 100, 32, 101] 24 26 (PuzzleState.mk 1 [0, 0, 0, 0, 0, 0, 0])
        (Action.MOVE_CURSOR Direction.DIR_UP) = some fr →
      fr.cursor_pos = (PuzzleState.mk 1 [0, 0, 0, 0, 0, 0, 0]).cursor_pos ∧
        fr.stext = (PuzzleState.mk 1 [0, 0, 0, 0, 0, 0, 0]).stext) :=
  ⟨by decide,
    up_first_row_noop [97, 98, 32, 99, 100, 32, 101] 24 26 (PuzzleState.mk 1 [0, 0, 0, 0, 0, 0, 0])
      (by decide) (by decide)
      (fun j hj => by
        have hj1 : j < 1 := hj
        have hj0 : j = 0 := by omega
        subst hj0
        decide)⟩

/-- C20 (the Up assertion is valid).  For every non-empty ciphertext, every
row width and every cursor inside the text, the Up branch passes its
assertion `mpos + cursor_offset <= cursor_pos`: it returns a cursor that is
not larger than the old one.  When the cursor's row starts at an index
`R > 0`, so that a previous row exists, starting at `s`, the new cursor is
smaller than `R` and not smaller than `s`. -/
theorem up_assertion_valid (ctext : List Nat) (rowlen c : Nat) (_hne : 0 < ctext.length)
    (_hc : c < ctext.length) :
    ∃ c1, move_up ctext (get_row_markers ctext rowlen) c = some c1 ∧ c1 ≤ c ∧
      ∀ R, RowStartOf (get_row_markers ctext rowlen) c R → 0 < R →
        ∀ s, RowStartOf (get_row_markers ctext rowlen) (R - 1) s → s ≤ c1 ∧ c1 < R :=
  move_up_value ctext (get_row_markers ctext rowlen) c

theorem up_assertion_valid_witness :
    (0 < [97, 98, 32, 99, 100, 32, 101].length ∧ 4 < [97, 98, 32, 99, 100, 32, 101].length ∧
      move_up [97, 98, 32, 99, 100, 32, 101] (get_row_markers [97, 98, 32, 99, 100, 32, 101] 3) 4
        = some 1) ∧
    ∃ c1, move_up [97, 98, 32, 99, 100, 32, 101]
        (get_row_markers [97, 98, 32, 99, 100, 32, 101] 3) 4 = some c1 ∧ c1 ≤ 4 ∧
      ∀ R, RowStartOf (get_row_markers [97, 98, 32, 99, 100, 32, 101] 3) 4 R → 0 < R →
        ∀ s, RowStartOf (get_row_markers [97, 98, 32, 99, 100, 32, 101] 3) (R - 1) s →
          s ≤ c1 ∧ c1 < R :=
  ⟨by decide, up_assertion_valid [97, 98, 32, 99, 100, 32, 101] 3 4 (by decide) (by decide)⟩

theorem move_down_column (ctext mtext : List Nat) (c R k E : Nat)
    (hlen : ctext.length < 4294967296) (hrow : RowStartOf mtext c R) (hk : c = R + k)
    (hE1 : R ≤ E) (hE2 : E < ctext.length) (hE3 : charAt mtext E = NEWLINE)
    (hE4 : ∀ j, R ≤ j → j < E → charAt mtext j ≠ NEWLINE)
    (hnext : ∀ j, E + 1 ≤ j → j ≤ E + 1 + k → j < ctext.length ∧ charAt mtext j ≠ NEWLINE)
    (halnum : isalnum (charAt ctext (E + 1 + k)) = true) :
    move_down ctext mtext c = E + 1 + k := by
  have hin := (hnext (E + 1 + k) (by omega) (le_refl _)).1
  have hmpos : next_line_start mtext ctext.length (ctext.length - (R + 1)) (R + 1) = E + 1 :=
    next_line_start_eq mtext ctext.length E hE2 hE3 _ (R + 1) (by omega) (by omega) (by omega)
      (fun j hj1 hj2 => hE4 j (by omega) hj2)
  have hll : k + 1 ≤ line_length mtext ctext.length (E + 1) (ctext.length - (E + 1)) 0 :=
    line_length_gt mtext ctext.length (E + 1) k _ 0 (by omega)
      (fun j hj1 hj2 => hnext j (by omega) hj2)
  have hadd : u32add (E + 1) k = E + 1 + k := u32add_small _ _ (by omega)
  unfold move_down
  rw [line_start_eq mtext c 0 R hrow]
  simp only [Nat.zero_add]
  rw [hmpos]
  have hk2 : c - R = k := by omega
  rw [hk2]
  have hnot : ¬ (k ≥ line_length mtext ctext.length (E + 1) (ctext.length - (E + 1)) 0) := by
    omega
  rw [if_neg hnot]
  rw [down_clamp_id ctext.length (E + 1) k (by rw [hadd]; omega)]
  rw [down_scan_stop ctext ctext.length (E + 1) ctext.length k (by rw [hadd]; exact halnum)]
  rw [hadd, if_pos hin]

/-- C17 (Up/Down preserve the column).  Rows are those of the marker text of
`get_row_markers` for the terminal width.  Let the cursor `c` be at column
offset `k` of its row, which starts at `R`.  Up: if a previous row exists,
starts at `s`, has more than `k` characters (`k < R - 1 - s`) and holds an
alphanumeric character at `s + k`, the cursor becomes `s + k`.  Down: if the
cursor's row ends at the marker `E`, the next row (starting at `E + 1`) has
more than `k` characters and holds an alphanumeric character at `E + 1 + k`,
the cursor becomes `E + 1 + k`. -/
theorem up_down_preserve_column (ctext : List Nat) (mcol c R k : Nat)
    (hlen : ctext.length < 4294967296)
    (hrow : RowStartOf (get_row_markers ctext (u32sub mcol (2 * pad) / 2)) c R)
    (hk : c = R + k) :
    (0 < R → ∀ s, RowStartOf (get_row_markers ctext (u32sub mcol (2 * pad) / 2)) (R - 1) s →
      k < R - 1 - s → isalnum (charAt ctext (s + k)) = true →
      move_up ctext (get_row_markers ctext (u32sub mcol (2 * pad) / 2)) c = some (s + k)) ∧
    (∀ E, R ≤ E → E < ctext.length →
      charAt (get_row_markers ctext (u32sub mcol (2 * pad) / 2)) E = NEWLINE →
      (∀ j, R ≤ j → j < E →
        charAt (get_row_markers ctext (u32sub mcol (2 * pad) / 2)) j ≠ NEWLINE) →
      (∀ j, E + 1 ≤ j → j ≤ E + 1 + k → j < ctext.length ∧
        charAt (get_row_markers ctext (u32sub mcol (2 * pad) / 2)) j ≠ NEWLINE) →
      isalnum (charAt ctext (E + 1 + k)) = true →
      move_down ctext (get_row_markers ctext (u32sub mcol (2 * pad) / 2)) c = E + 1 + k) := by
  refine ⟨?_, ?_⟩
  · intro hpos s hs hks halnum
    rw [move_up_prev ctext _ c R s hrow hpos hs]
    have hk2 : c - R = k := by omega
    rw [hk2]
    have hnot : ¬ (k > R - 1 - s) := by omega
    rw [if_neg hnot, up_scan_stop ctext s k halnum]
  · intro E hE1 hE2 hE3 hE4 hnext halnum
    exact move_down_column ctext _ c R k E hlen hrow hk hE1 hE2 hE3 hE4 hnext halnum

theorem up_down_preserve_column_witness :
    ([97, 98, 32, 99, 100, 32, 101, 102].length < 4294967296 ∧
      RowStartOf (get_row_markers [97, 98, 32, 99, 100, 32, 101, 102] (u32sub 26 (2 * pad) / 2)) 4 3 ∧ 4 = 3 + 1 ∧
      (get_row_markers [97, 98, 32, 99, 100, 32, 101, 102] (u32sub 26 (2 * pad) / 2)) = [97, 98, 10, 99, 100, 10, 101, 102] ∧
      move_up [97, 98, 32, 99, 100, 32, 101, 102] (get_row_markers [97, 98, 32, 99, 100, 32, 101, 102] (u32sub 26 (2 * pad) / 2)) 4 = some 1 ∧
      move_down [97, 98, 32, 99, 100, 32, 101, 102] (get_row_markers [97, 98, 32, 99, 100, 32, 101, 102] (u32sub 26 (2 * pad) / 2)) 4 = 7) ∧
    ((0 < 3 → ∀ s, RowStartOf (get_row_markers [97, 98, 32, 99, 100, 32, 101, 102] (u32sub 26 (2 * pad) / 2)) (3 - 1) s →
      1 < 3 - 1 - s → isalnum (charAt [97, 98, 32, 99, 100, 32, 101, 102] (s + 1)) = true →
      move_up [97, 98, 32, 99, 100, 32, 101, 102] (get_row_markers [97, 98, 32, 99, 100, 32, 101, 102] (u32sub 26 (2 * pad) / 2)) 4 = some (s + 1)) ∧
    (∀ E, 3 ≤ E → E < [97, 98, 32, 99, 100, 32, 101, 102].length →
      charAt (get_row_markers [97, 98, 32, 99, 100, 32, 101, 102] (u32sub 26 (2 * pad) / 2)) E = NEWLINE →
      (∀ j, 3 ≤ j → j < E → charAt (get_row_markers [97, 98, 32, 99, 100, 32, 101, 102] (u32sub 26 (2 * pad) / 2)) j ≠ NEWLINE) →
      (∀ j, E + 1 ≤ j → j ≤ E + 1 + 1 → j < [97, 98, 32, 99, 100, 32, 101, 102].length ∧
        charAt (get_row_markers [97, 98, 32, 99, 100, 32, 101, 102] (u32sub 26 (2 * pad) / 2)) j ≠ NEWLINE) →
      isalnum (charAt [97, 98, 32, 99, 100, 32, 101, 102] (E + 1 + 1)) = true →
      move_down [97, 98, 32, 99, 100, 32, 101, 102] (get_row_markers [97, 98, 32, 99, 100, 32, 101, 102] (u32sub 26 (2 * pad) / 2)) 4 = E + 1 + 1)) :=
  have hrow : RowStartOf (get_row_markers [97, 98, 32, 99, 100, 32, 101, 102] (u32sub 26 (2 * pad) / 2)) 4 3 :=
    ⟨by decide, Or.inr (by decide), fun j h1 h2 => by
      have hj : j = 3 := by omega
      subst hj
      decide⟩
  ⟨⟨by decide, hrow, rfl, by decide, by decide, by decide⟩,
    up_down_preserve_column [97, 98, 32, 99, 100, 32, 101, 102] 26 4 3 1 (by decide) hrow rfl⟩

/-! ### The render loop and the marker text break at the same spaces -/

theorem get_next_space_loop_bounds (ctext : List Nat) (len : Nat) : ∀ fuel j,
    j ≤ get_next_space_loop ctext len fuel j ∧
      (j ≤ len → get_next_space_loop ctext len fuel j ≤ len) := by
  intro fuel
  induction fuel with
  | zero => intro j; simp [get_next_space_loop]
  | succ fuel ih =>
    intro j
    unfold get_next_space_loop
    split_ifs with h1 h2
    · exact ⟨le_refl _, fun h => h⟩
    · have := ih (j + 1)
      exact ⟨by omega, fun _ => this.2 (by omega)⟩
    · exact ⟨le_refl _, fun h => h⟩

theorem get_next_space_bounds (ctext : List Nat) (len pos : Nat) (h : pos < len) :
    pos < get_next_space ctext len pos ∧ get_next_space ctext len pos ≤ len := by
  unfold get_next_space
  have := get_next_space_loop_bounds ctext len (len - (pos + 1)) (pos + 1)
  exact ⟨by omega, this.2 (by omega)⟩

/-- Without wrap-around the test of the render loop, in screen columns, is the
test of `get_row_markers`, in characters. -/
theorem wrap_iff (n i d ccol rc mcol : Nat) (h1 : i < d) (h2 : d ≤ n) (h3 : ccol ≤ i)
    (h4 : rc = 10 + 2 * ccol) (h5 : 20 ≤ mcol) (h6 : mcol < 4294967296)
    (h7 : 4 * n + 12 < 4294967296) :
    u32add rc (u32mul (u32sub d i) 2) > u32sub mcol pad ↔
      u32add ccol (u32sub d i) > u32sub mcol (2 * pad) / 2 := by
  unfold u32add u32mul u32sub U32 pad
  omega

theorem render_step_wrap (ctext : List Nat) (mrow mcol mouserow mousecol i : Nat)
    (rs : RenderState) (next : Nat × RenderState)
    (h : render_step ctext mrow mcol mouserow mousecol i rs = some next)
    (hw : charAt ctext i = SPACE ∧
      u32add rs.ccol (u32mul (u32sub (get_next_space ctext ctext.length i) i) 2)
        > u32sub mcol pad) :
    next.1 = i + 1 + 1 ∧ next.2.ccol = u32add pad 2 ∧ next.2.breaks = rs.breaks ++ [i] ∧
      next.2.crow = u32add rs.crow rowspace := by
  unfold render_step at h
  simp only [hw, and_self, decide_True, if_true] at h
  split_ifs at h
  all_goals
    simp only [Option.some.injEq] at h
    subst h
    exact ⟨rfl, rfl, rfl, rfl⟩

theorem render_step_nowrap (ctext : List Nat) (mrow mcol mouserow mousecol i : Nat)
    (rs : RenderState) (next : Nat × RenderState)
    (h : render_step ctext mrow mcol mouserow mousecol i rs = some next)
    (hw : ¬ (charAt ctext i = SPACE ∧
      u32add rs.ccol (u32mul (u32sub (get_next_space ctext ctext.length i) i) 2)
        > u32sub mcol pad)) :
    next.1 = i + 1 ∧ next.2.ccol = u32add rs.ccol 2 ∧ next.2.breaks = rs.breaks ∧
      next.2.crow = rs.crow := by
  unfold render_step at h
  simp only [hw, decide_False, Bool.false_eq_true, if_false, false_and, not_false_eq_true] at h
  split_ifs at h
  all_goals
    simp only [Option.some.injEq] at h
    subst h
    exact ⟨rfl, rfl, rfl, rfl⟩

/-- The simulation of `get_row_markers` by the render loop: run from the same
index with `ccol` of the render loop equal to `pad + 2 * ccol` of
`get_row_markers`, the render loop consumes as carriage returns exactly the
spaces that `get_row_markers` turns into newlines. -/
theorem render_breaks_sim (ctext : List Nat) (mrow mcol mouserow mousecol : Nat)
    (h5 : 20 ≤ mcol) (h6 : mcol < 4294967296) (h7 : 4 * ctext.length + 12 < 4294967296) :
    ∀ (fuel i ccol : Nat) (mtext : List Nat) (rs rs1 : RenderState),
      mtext.length = ctext.length → ctext.length ≤ i + fuel → rs.ccol = 10 + 2 * ccol →
      ccol ≤ i → render_loop ctext mrow mcol mouserow mousecol fuel i rs = some rs1 →
      ∀ j, j ∈ rs1.breaks ↔ (j ∈ rs.breaks ∨ (i ≤ j ∧ j < ctext.length ∧
        charAt ctext j = SPACE ∧
        charAt (get_row_markers_loop ctext (u32sub mcol (2 * pad) / 2) fuel i ccol mtext) j
          = NEWLINE)) := by
  intro fuel
  induction fuel with
  | zero =>
    intro i ccol mtext rs rs1 _ hfuel _ _ h j
    simp only [render_loop, Option.some.injEq] at h
    subst h
    constructor
    · exact fun hj => Or.inl hj
    · rintro (hj | hj)
      · exact hj
      · omega
  | succ fuel ih =>
    intro i ccol mtext rs rs1 hlen hfuel hcc hci h j
    unfold render_loop at h
    by_cases hi : i < ctext.length
    · rw [if_pos hi] at h
      cases hstep : render_step ctext mrow mcol mouserow mousecol i rs with
      | none => rw [hstep] at h; exact absurd h (by simp)
      | some next =>
        rw [hstep] at h
        simp only [] at h
        have hd := get_next_space_bounds ctext ctext.length i hi
        have hwi := wrap_iff ctext.length i (get_next_space ctext ctext.length i) ccol rs.ccol
          mcol hd.1 hd.2 hci hcc h5 h6 h7
        unfold get_row_markers_loop
        rw [if_pos hi]
        by_cases hw : charAt ctext i = SPACE ∧
            u32add rs.ccol (u32mul (u32sub (get_next_space ctext ctext.length i) i) 2)
              > u32sub mcol pad
        · have hwm : charAt ctext i = SPACE ∧
              u32add ccol (u32sub (get_next_space ctext ctext.length i) i)
                > u32sub mcol (2 * pad) / 2 := ⟨hw.1, hwi.mp hw.2⟩
          rw [if_pos hwm]
          obtain ⟨e1, e2, e3, _⟩ :=
            render_step_wrap ctext mrow mcol mouserow mousecol i rs next hstep hw
          rw [e1] at h
          have hlen2 : ((mtext.set i NEWLINE).set (i + 1) (charAt ctext (i + 1))).length
              = ctext.length := by simp [hlen]
          have hih := ih (i + 1 + 1) (0 + 1)
            ((mtext.set i NEWLINE).set (i + 1) (charAt ctext (i + 1))) next.2 rs1 hlen2
            (by omega) (by rw [e2]; decide) (by omega) h j
          have hspec := (get_row_markers_loop_spec ctext (u32sub mcol (2 * pad) / 2) fuel
            (i + 1 + 1) (0 + 1) ((mtext.set i NEWLINE).set (i + 1) (charAt ctext (i + 1)))
            hlen2 (by omega)).2.1
          rw [hih, e3, List.mem_append, List.mem_singleton]
          constructor
          · rintro ((hj | hj) | hj)
            · exact Or.inl hj
            · subst hj
              right
              refine ⟨le_refl _, hi, hw.1, ?_⟩
              rw [hspec j (by omega), charAt_set, charAt_set]
              have c1 : ¬ (j + 1 = j ∧ j + 1 < (mtext.set j NEWLINE).length) := by omega
              have c2 : j = j ∧ j < mtext.length := ⟨rfl, by omega⟩
              rw [if_neg c1, if_pos c2]
            · exact Or.inr ⟨by omega, hj.2⟩
          · rintro (hj | ⟨hj1, hj2, hj3, hj4⟩)
            · exact Or.inl (Or.inl hj)
            · by_cases hji : j = i
              · exact Or.inl (Or.inr hji)
              · by_cases hji1 : j = i + 1
                · exfalso
                  subst hji1
                  rw [hspec (i + 1) (by omega), charAt_set] at hj4
                  have c1 : i + 1 = i + 1 ∧ i + 1 < (mtext.set i NEWLINE).length :=
                    ⟨rfl, by simp; omega⟩
                  rw [if_pos c1, hj3] at hj4
                  exact absurd hj4 (by decide)
                · exact Or.inr ⟨by omega, hj2, hj3, hj4⟩
        · have hwm : ¬ (charAt ctext i = SPACE ∧
              u32add ccol (u32sub (get_next_space ctext ctext.length i) i)
                > u32sub mcol (2 * pad) / 2) := fun hm => hw ⟨hm.1, hwi.mpr hm.2⟩
          rw [if_neg hwm]
          obtain ⟨e1, e2, e3, _⟩ :=
            render_step_nowrap ctext mrow mcol mouserow mousecol i rs next hstep hw
          rw [e1] at h
          have hlen2 : (mtext.set i (charAt ctext i)).length = ctext.length := by simp [hlen]
          have hcc2 : next.2.ccol = 10 + 2 * (ccol + 1) := by
            rw [e2, hcc]
            unfold u32add U32
            omega
          have hih := ih (i + 1) (ccol + 1) (mtext.set i (charAt ctext i)) next.2 rs1 hlen2
            (by omega) hcc2 (by omega) h j
          have hspec := (get_row_markers_loop_spec ctext (u32sub mcol (2 * pad) / 2) fuel
            (i + 1) (ccol + 1) (mtext.set i (charAt ctext i)) hlen2 (by omega)).2.1
          rw [hih, e3]
          constructor
          · rintro (hj | hj)
            · exact Or.inl hj
            · exact Or.inr ⟨by omega, hj.2⟩
          · rintro (hj | ⟨hj1, hj2, hj3, hj4⟩)
            · exact Or.inl hj
            · by_cases hji : j = i
              · exfalso
                subst hji
                rw [hspec j (by omega), charAt_set] at hj4
                have c2 : j = j ∧ j < mtext.length := ⟨rfl, by omega⟩
                rw [if_pos c2, hj3] at hj4
                exact absurd hj4 (by decide)
              · exact Or.inr ⟨by omega, hj2, hj3, hj4⟩
    · rw [if_neg hi] at h
      simp only [Option.some.injEq] at h
      subst h
      constructor
      · exact fun hj => Or.inl hj
      · rintro (hj | hj)
        · exact hj
        · omega

theorem render_breaks_markers (ctext : List Nat) (mrow mcol mouserow mousecol cursor : Nat)
    (rs : RenderState) (h5 : 20 ≤ mcol) (h6 : mcol < 4294967296)
    (h7 : 4 * ctext.length + 12 < 4294967296)
    (h : render_loop ctext mrow mcol mouserow mousecol ctext.length 0
      { crow := rowspace, ccol := pad, cursor_pos := cursor, cursor_row := 0, cursor_col := 0,
        breaks := [] } = some rs) :
    ∀ j, j ∈ rs.breaks ↔ (j < ctext.length ∧ charAt ctext j = SPACE ∧
      charAt (get_row_markers ctext (u32sub mcol (2 * pad) / 2)) j = NEWLINE) := by
  intro j
  have hsim := render_breaks_sim ctext mrow mcol mouserow mousecol h5 h6 h7 ctext.length 0 0
    (List.replicate ctext.length SPACE) _ rs (by simp) (by omega) rfl (le_refl _) h j
  rw [hsim]
  unfold get_row_markers
  simp

theorem display_pass_breaks (ctext : List Nat) (mrow mcol : Nat) (st : PuzzleState)
    (act : Action) (fr : Frame) (h : display_pass ctext mrow mcol st act = some fr) :
    ∃ mouserow mousecol cursor rs,
      render_loop ctext mrow mcol mouserow mousecol ctext.length 0
        { crow := rowspace, ccol := pad, cursor_pos := cursor, cursor_row := 0, cursor_col := 0,
          breaks := [] } = some rs ∧ fr.breaks = rs.breaks := by
  unfold display_pass at h
  cases hpa : process_action ctext mcol st act with
  | none => rw [hpa] at h; exact absurd h (by simp)
  | some pa =>
    rw [hpa] at h
    obtain ⟨st1, msgs, mouserow, mousecol⟩ := pa
    simp only [] at h
    cases hr : render_loop ctext mrow mcol mouserow mousecol ctext.length 0
        { crow := rowspace, ccol := pad, cursor_pos := st1.cursor_pos,
          cursor_row := 0, cursor_col := 0, breaks := [] } with
    | none => rw [hr] at h; exact absurd h (by simp)
    | some rs =>
      rw [hr] at h
      simp only [Option.some.injEq] at h
      subst h
      exact ⟨mouserow, mousecol, st1.cursor_pos, rs, hr, rfl⟩

theorem display_breaks (ctext : List Nat) (mrow mcol : Nat) (st : PuzzleState)
    (act : Action) (fr : Frame) (h : display ctext mrow mcol st act = some fr) :
    ∃ mouserow mousecol cursor rs,
      render_loop ctext mrow mcol mouserow mousecol ctext.length 0
        { crow := rowspace, ccol := pad, cursor_pos := cursor, cursor_row := 0, cursor_col := 0,
          breaks := [] } = some rs ∧ fr.breaks = rs.breaks := by
  unfold display at h
  cases hp : display_pass ctext mrow mcol st act with
  | none => rw [hp] at h; exact absurd h (by simp)
  | some fr1 =>
    rw [hp] at h
    simp only [] at h
    by_cases hset : CURSOR_SET fr1.cursor_pos = true
    · rw [if_pos hset] at h
      simp only [Option.some.injEq] at h
      subst h
      exact display_pass_breaks ctext mrow mcol st act fr1 hp
    · rw [if_neg hset] at h
      cases hp2 : display_pass ctext mrow mcol
          { cursor_pos := st.cursor_pos, stext := fr1.stext } Action.NONE with
      | none => rw [hp2] at h; exact absurd h (by simp)
      | some fr2 =>
        rw [hp2] at h
        simp only [] at h
        by_cases hset2 : CURSOR_SET fr2.cursor_pos = true
        · rw [if_pos hset2] at h
          simp only [Option.some.injEq] at h
          subst h
          exact display_pass_breaks ctext mrow mcol _ _ fr2 hp2
        · rw [if_neg hset2] at h
          exact absurd h (by simp)

theorem row_markers_newline_origin (ctext : List Nat) (rowlen j : Nat)
    (h : charAt (get_row_markers ctext rowlen) j = NEWLINE) :
    j < ctext.length ∧ (charAt ctext j = SPACE ∨ charAt ctext j = NEWLINE) := by
  obtain ⟨h1, _, h3⟩ := get_row_markers_loop_spec ctext rowlen ctext.length 0 0
    (List.replicate ctext.length SPACE) (by simp) (by omega)
  have hjn : j < ctext.length := by
    by_contra hge
    rw [charAt_of_le _ j (by unfold get_row_markers; omega)] at h
    exact absurd h (by decide)
  refine ⟨hjn, ?_⟩
  rcases h3 j (Nat.zero_le j) hjn with hc | hc
  · right
    rw [← hc]
    exact h
  · left
    exact hc.1

/-- C19 (navigation and rendering agree on row breaks).  Let the terminal
width satisfy `2 * pad = 20 <= mcol < 2^32`, let the ciphertext be short
enough for the column arithmetic not to wrap (`4 * tlen + 12 < 2^32`), and let
`display` return, so that no render assertion fails.  Then an index is
consumed as a carriage return by the render loop exactly when it holds a space
that `get_row_markers(ctext, (mcol - 2 * pad) / 2)` replaces by a newline;
when the ciphertext holds no newline character itself, these are exactly the
indices at which the marker text holds a newline, so Up and Down see the rows
that are drawn. -/
theorem render_rows_agree (ctext : List Nat) (mrow mcol : Nat) (st : PuzzleState)
    (act : Action) (fr : Frame) (h5 : 2 * pad ≤ mcol) (h6 : mcol < 4294967296)
    (h7 : 4 * ctext.length + 12 < 4294967296)
    (h : display ctext mrow mcol st act = some fr) :
    (∀ j, j ∈ fr.breaks ↔ (j < ctext.length ∧ charAt ctext j = SPACE ∧
      charAt (get_row_markers ctext (u32sub mcol (2 * pad) / 2)) j = NEWLINE)) ∧
    ((∀ ch ∈ ctext, ch ≠ NEWLINE) →
      ∀ j, j ∈ fr.breaks ↔
        charAt (get_row_markers ctext (u32sub mcol (2 * pad) / 2)) j = NEWLINE) := by
  obtain ⟨mouserow, mousecol, cursor, rs, hr, hb⟩ := display_breaks ctext mrow mcol st act fr h
  have hmain := render_breaks_markers ctext mrow mcol mouserow mousecol cursor rs
    (by simpa [pad] using h5) h6 h7 hr
  rw [hb]
  refine ⟨hmain, ?_⟩
  intro hnonl j
  rw [hmain j]
  constructor
  · exact fun hj => hj.2.2
  · intro hj
    obtain ⟨hjn, hsp⟩ := row_markers_newline_origin ctext _ j hj
    rcases hsp with hsp | hsp
    · exact ⟨hjn, hsp, hj⟩
    · exact absurd hsp (hnonl _ (charAt_mem ctext j hjn))

theorem render_rows_agree_witness :
    (2 * pad ≤ 26 ∧ (26 : Nat) < 4294967296 ∧
      4 * [97, 98, 32, 99, 100, 32, 101].length + 12 < 4294967296 ∧
      display [97, 98, 32, 99, 100, 32, 101] 24 26 (PuzzleState.mk 3 [0, 0, 0, 0, 0, 0, 0])
        Action.NONE = some (Frame.mk 3 [0, 0, 0, 0, 0, 0, 0] 5 10 0 [2, 5] 0) ∧
      get_row_markers [97, 98, 32, 99, 100, 32, 101] (u32sub 26 (2 * pad) / 2) =
        [97, 98, 10, 99, 100, 10, 101]) ∧
    ((∀ j, j ∈ (Frame.mk 3 [0, 0, 0, 0, 0, 0, 0] 5 10 0 [2, 5] 0).breaks ↔
      (j < [97, 98, 32, 99, 100, 32, 101].length ∧
        charAt [97, 98, 32, 99, 100, 32, 101] j = SPACE ∧
        charAt (get_row_markers [97, 98, 32, 99, 100, 32, 101] (u32sub 26 (2 * pad) / 2)) j
          = NEWLINE)) ∧
    ((∀ ch ∈ [97, 98, 32, 99, 100, 32, 101], ch ≠ NEWLINE) →
      ∀ j, j ∈ (Frame.mk 3 [0, 0, 0, 0, 0, 0, 0] 5 10 0 [2, 5] 0).breaks ↔
        charAt (get_row_markers [97, 98, 32, 99, 100, 32, 101] (u32sub 26 (2 * pad) / 2)) j
          = NEWLINE)) :=
  ⟨by decide,
    render_rows_agree [97, 98, 32, 99, 100, 32, 101] 24 26 (PuzzleState.mk 3 [0, 0, 0, 0, 0, 0, 0])
      Action.NONE (Frame.mk 3 [0, 0, 0, 0, 0, 0, 0] 5 10 0 [2, 5] 0) (by decide) (by decide)
      (by decide) (by decide)⟩

/-- C19, as stated, fails for a ciphertext that holds a newline character.  On
`"a\nb"` with 80 columns the render loop consumes no space as a carriage
return (all three cells are drawn on screen row 3), yet the marker text holds
a newline at index 1, and Up takes it for a row break: from index 2 the cursor
moves to index 0. -/
theorem render_rows_disagree_on_newline :
    (display [97, 10, 98] 24 80 { cursor_pos := 2, stext := [0, 0, 0] } Action.NONE).map
      (fun fr => fr.breaks) = some [] ∧
    render_cells [97, 10, 98] 24 80 =
      some [{ idx := 0, crow := 3, ccol := 10 }, { idx := 1, crow := 3, ccol := 12 },
        { idx := 2, crow := 3, ccol := 14 }] ∧
    get_row_markers [97, 10, 98] (u32sub 80 (2 * pad) / 2) = [97, 10, 98] ∧
    charAt (get_row_markers [97, 10, 98] (u32sub 80 (2 * pad) / 2)) 1 = NEWLINE ∧
    (display [97, 10, 98] 24 80 { cursor_pos := 2, stext := [0, 0, 0] }
      (Action.MOVE_CURSOR Direction.DIR_UP)).map (fun fr => fr.cursor_pos) = some 0 := by
  decide

/-! ### The render loop and the list of rendered cells -/

theorem render_cells_loop_wrap (ctext : List Nat) (mrow mcol fuel i crow ccol : Nat)
    (cells : List Cell) (hi : i < ctext.length)
    (hw : charAt ctext i = SPACE ∧
      u32add ccol (u32mul (u32sub (get_next_space ctext ctext.length i) i) 2) > u32sub mcol pad)
    (h : render_cells_loop ctext mrow mcol (fuel + 1) i crow ccol = some cells) :
    u32add crow rowspace < mrow ∧ u32add pad 2 ≤ u32sub mcol pad ∧
    ∃ rest, render_cells_loop ctext mrow mcol fuel (i + 1 + 1) (u32add crow rowspace)
        (u32add pad 2) = some rest ∧
      cells = { idx := i + 1, crow := u32add crow rowspace, ccol := pad } :: rest := by
  unfold render_cells_loop at h
  rw [if_pos hi] at h
  simp only [hw, and_self, decide_True, if_true, true_and] at h
  split_ifs at h with h1 h2
  cases hrec : render_cells_loop ctext mrow mcol fuel (i + 1 + 1) (u32add crow rowspace)
      (u32add pad 2) with
  | none => rw [hrec] at h; exact absurd h (by simp)
  | some rest =>
    rw [hrec] at h
    simp only [Option.some.injEq] at h
    exact ⟨by omega, by omega, rest, rfl, h.symm⟩

theorem render_cells_loop_nowrap (ctext : List Nat) (mrow mcol fuel i crow ccol : Nat)
    (cells : List Cell) (hi : i < ctext.length)
    (hw : ¬ (charAt ctext i = SPACE ∧
      u32add ccol (u32mul (u32sub (get_next_space ctext ctext.length i) i) 2) > u32sub mcol pad))
    (h : render_cells_loop ctext mrow mcol (fuel + 1) i crow ccol = some cells) :
    u32add ccol 2 ≤ u32sub mcol pad ∧
    ∃ rest, render_cells_loop ctext mrow mcol fuel (i + 1) crow (u32add ccol 2) = some rest ∧
      cells = { idx := i, crow := crow, ccol := ccol } :: rest := by
  unfold render_cells_loop at h
  rw [if_pos hi] at h
  simp only [hw, decide_False, Bool.false_eq_true, if_false, false_and, not_false_eq_true] at h
  split_ifs at h with h2
  cases hrec : render_cells_loop ctext mrow mcol fuel (i + 1) crow (u32add ccol 2) with
  | none => rw [hrec] at h; exact absurd h (by simp)
  | some rest =>
    rw [hrec] at h
    simp only [Option.some.injEq] at h
    exact ⟨by omega, rest, rfl, h.symm⟩

theorem render_step_wrap_some (ctext : List Nat) (mrow mcol mouserow mousecol i : Nat)
    (rs : RenderState)
    (hw : charAt ctext i = SPACE ∧
      u32add rs.ccol (u32mul (u32sub (get_next_space ctext ctext.length i) i) 2)
        > u32sub mcol pad)
    (ha1 : u32add rs.crow rowspace < mrow) (ha2 : u32add pad 2 ≤ u32sub mcol pad) :
    ∃ next, render_step ctext mrow mcol mouserow mousecol i rs = some next ∧
      next.2.cursor_pos =
        if rs.cursor_pos = CURSOR_MOUSE ∧
            mouse_hit ctext mouserow mousecol
              { idx := i + 1, crow := u32add rs.crow rowspace, ccol := pad } = true
          then i + 1 else rs.cursor_pos := by
  unfold render_step
  simp only [hw, and_self, decide_True, if_true, true_and]
  have n1 : ¬ (¬ (u32add rs.crow rowspace < mrow)) := by omega
  have n2 : ¬ (¬ (u32add pad 2 ≤ u32sub mcol pad)) := by omega
  rw [if_neg n1, if_neg n2]
  refine ⟨_, rfl, ?_⟩
  simp only [mouse_hit, decide_eq_true_eq]

theorem render_step_nowrap_some (ctext : List Nat) (mrow mcol mouserow mousecol i : Nat)
    (rs : RenderState)
    (hw : ¬ (charAt ctext i = SPACE ∧
      u32add rs.ccol (u32mul (u32sub (get_next_space ctext ctext.length i) i) 2)
        > u32sub mcol pad))
    (ha2 : u32add rs.ccol 2 ≤ u32sub mcol pad) :
    ∃ next, render_step ctext mrow mcol mouserow mousecol i rs = some next ∧
      next.2.cursor_pos =
        if rs.cursor_pos = CURSOR_MOUSE ∧
            mouse_hit ctext mouserow mousecol
              { idx := i, crow := rs.crow, ccol := rs.ccol } = true
          then i else rs.cursor_pos := by
  unfold render_step
  simp only [hw, decide_False, Bool.false_eq_true, if_false, false_and, not_false_eq_true]
  have n2 : ¬ (¬ (u32add rs.ccol 2 ≤ u32sub mcol pad)) := by omega
  rw [if_neg n2]
  refine ⟨_, rfl, ?_⟩
  simp only [mouse_hit, decide_eq_true_eq]

/-- When the layout pass meets no assertion failure, the render loop returns;
a set cursor is kept, and a pending click is resolved to the first rendered
cell that passes the test of the loop, or stays pending when there is none. -/
theorem render_loop_of_cells (ctext : List Nat) (mrow mcol mouserow mousecol : Nat)
    (hn : ctext.length < 4294967295) :
    ∀ (fuel i : Nat) (cells : List Cell) (rs : RenderState),
      render_cells_loop ctext mrow mcol fuel i rs.crow rs.ccol = some cells →
      ∃ rs1, render_loop ctext mrow mcol mouserow mousecol fuel i rs = some rs1 ∧
        rs1.cursor_pos =
          if rs.cursor_pos = CURSOR_MOUSE then
            (match cells.find? (mouse_hit ctext mouserow mousecol) with
              | some c => c.idx
              | none => CURSOR_MOUSE)
          else rs.cursor_pos := by
  intro fuel
  induction fuel with
  | zero =>
    intro i cells rs h
    simp only [render_cells_loop, Option.some.injEq] at h
    subst h
    refine ⟨rs, by simp [render_loop], ?_⟩
    by_cases hm : rs.cursor_pos = CURSOR_MOUSE
    · simp [hm]
    · simp [hm]
  | succ fuel ih =>
    intro i cells rs h
    by_cases hi : i < ctext.length
    · by_cases hw : charAt ctext i = SPACE ∧
          u32add rs.ccol (u32mul (u32sub (get_next_space ctext ctext.length i) i) 2)
            > u32sub mcol pad
      · obtain ⟨ha1, ha2, rest, hrec, hcells⟩ :=
          render_cells_loop_wrap ctext mrow mcol fuel i rs.crow rs.ccol cells hi hw h
        obtain ⟨next, hstep, hcur⟩ :=
          render_step_wrap_some ctext mrow mcol mouserow mousecol i rs hw ha1 ha2
        obtain ⟨e1, e2, _, e4⟩ :=
          render_step_wrap ctext mrow mcol mouserow mousecol i rs next hstep hw
        rw [← e1, ← e2, ← e4] at hrec
        obtain ⟨rs1, hloop, hres⟩ := ih next.1 rest next.2 hrec
        refine ⟨rs1, ?_, ?_⟩
        · unfold render_loop
          rw [if_pos hi, hstep]
          exact hloop
        · rw [hres, hcur, hcells]
          by_cases hm : rs.cursor_pos = CURSOR_MOUSE
          · by_cases hh : mouse_hit ctext mouserow mousecol
                { idx := i + 1, crow := u32add rs.crow rowspace, ccol := pad } = true
            · have hne : ¬ (i + 1 = CURSOR_MOUSE) := by
                simp only [CURSOR_MOUSE]
                omega
              simp [hm, hh, hne, List.find?_cons]
            · simp [hm, hh, List.find?_cons]
          · simp [hm]
      · obtain ⟨ha2, rest, hrec, hcells⟩ :=
          render_cells_loop_nowrap ctext mrow mcol fuel i rs.crow rs.ccol cells hi hw h
        obtain ⟨next, hstep, hcur⟩ :=
          render_step_nowrap_some ctext mrow mcol mouserow mousecol i rs hw ha2
        obtain ⟨e1, e2, _, e4⟩ :=
          render_step_nowrap ctext mrow mcol mouserow mousecol i rs next hstep hw
        rw [← e1, ← e2, ← e4] at hrec
        obtain ⟨rs1, hloop, hres⟩ := ih next.1 rest next.2 hrec
        refine ⟨rs1, ?_, ?_⟩
        · unfold render_loop
          rw [if_pos hi, hstep]
          exact hloop
        · rw [hres, hcur, hcells]
          by_cases hm : rs.cursor_pos = CURSOR_MOUSE
          · by_cases hh : mouse_hit ctext mouserow mousecol
                { idx := i, crow := rs.crow, ccol := rs.ccol } = true
            · have hne : ¬ (i = CURSOR_MOUSE) := by
                simp only [CURSOR_MOUSE]
                omega
              simp [hm, hh, hne, List.find?_cons]
            · simp [hm, hh, List.find?_cons]
          · simp [hm]
    · unfold render_cells_loop at h
      rw [if_neg hi] at h
      simp only [Option.some.injEq] at h
      subst h
      refine ⟨rs, by unfold render_loop; rw [if_neg hi], ?_⟩
      by_cases hm : rs.cursor_pos = CURSOR_MOUSE
      · simp [hm]
      · simp [hm]

/-- The layout of the rendered cells: cipher rows are multiples of `rowspace`
without wrap-around, and no two cells share a screen position. -/
theorem render_cells_layout (ctext : List Nat) (mrow mcol : Nat)
    (hn : 4 * ctext.length + 12 < 4294967296) :
    ∀ (fuel i crow ccol : Nat) (cells : List Cell),
      render_cells_loop ctext mrow mcol fuel i crow ccol = some cells →
      crow % 3 = 0 → 3 ≤ crow → crow ≤ 3 + 3 * i → ccol ≤ 10 + 2 * i →
      (∀ c ∈ cells, c.crow % 3 = 0 ∧ crow ≤ c.crow ∧ c.crow < 4294967296 ∧
        (c.crow = crow → ccol ≤ c.ccol)) ∧
      cells.Pairwise (fun a b => ¬ (a.crow = b.crow ∧ a.ccol = b.ccol)) := by
  intro fuel
  induction fuel with
  | zero =>
    intro i crow ccol cells h _ _ _ _
    simp only [render_cells_loop, Option.some.injEq] at h
    subst h
    simp
  | succ fuel ih =>
    intro i crow ccol cells h h1 h2 h3 h4
    by_cases hi : i < ctext.length
    · by_cases hw : charAt ctext i = SPACE ∧
          u32add ccol (u32mul (u32sub (get_next_space ctext ctext.length i) i) 2)
            > u32sub mcol pad
      · obtain ⟨_, _, rest, hrec, hcells⟩ :=
          render_cells_loop_wrap ctext mrow mcol fuel i crow ccol cells hi hw h
        have e1 : u32add crow rowspace = crow + 3 := by
          unfold u32add U32 rowspace
          omega
        have e2 : u32add pad 2 = 12 := by decide
        rw [e1, e2] at hrec
        rw [e1] at hcells
        obtain ⟨hall, hpair⟩ := ih (i + 1 + 1) (crow + 3) 12 rest hrec (by omega) (by omega)
          (by omega) (by omega)
        subst hcells
        refine ⟨?_, ?_⟩
        · intro c hc
          rcases List.mem_cons.mp hc with hc | hc
          · subst hc
            simp only []
            exact ⟨by omega, by omega, by omega, fun hx => by omega⟩
          · obtain ⟨a1, a2, a3, _⟩ := hall c hc
            exact ⟨a1, by omega, a3, fun hx => by omega⟩
        · rw [List.pairwise_cons]
          refine ⟨?_, hpair⟩
          intro b hb
          obtain ⟨_, _, _, a4⟩ := hall b hb
          simp only [pad]
          intro hx
          have := a4 hx.1.symm
          omega
      · obtain ⟨_, rest, hrec, hcells⟩ :=
          render_cells_loop_nowrap ctext mrow mcol fuel i crow ccol cells hi hw h
        have e2 : u32add ccol 2 = ccol + 2 := by
          unfold u32add U32
          omega
        rw [e2] at hrec
        obtain ⟨hall, hpair⟩ := ih (i + 1) crow (ccol + 2) rest hrec h1 h2 (by omega) (by omega)
        subst hcells
        refine ⟨?_, ?_⟩
        · intro c hc
          rcases List.mem_cons.mp hc with hc | hc
          · subst hc
            simp only []
            exact ⟨h1, le_refl _, by omega, fun _ => le_refl _⟩
          · obtain ⟨a1, a2, a3, a4⟩ := hall c hc
            exact ⟨a1, a2, a3, fun hx => by have := a4 hx; omega⟩
        · rw [List.pairwise_cons]
          refine ⟨?_, hpair⟩
          intro b hb
          obtain ⟨_, _, _, a4⟩ := hall b hb
          simp only []
          intro hx
          have := a4 hx.1.symm
          omega
    · unfold render_cells_loop at h
      rw [if_neg hi] at h
      simp only [Option.some.injEq] at h
      subst h
      simp

/-- On a rendered cell the test of the render loop is the test of the click
being on the cell's cipher row or on its solution row. -/
theorem mouse_hit_eq_click_hits (ctext : List Nat) (row col : Nat) (c : Cell)
    (h1 : 3 ≤ c.crow) (h2 : c.crow < 4294967296) :
    mouse_hit ctext row col c = click_hits ctext row col c := by
  have hsub : u32sub c.crow 1 = row ↔ c.crow = row + 1 := by
    unfold u32sub U32
    omega
  rw [Bool.eq_iff_iff]
  simp only [mouse_hit, click_hits, decide_eq_true_eq, Bool.and_eq_true, Bool.or_eq_true, hsub,
    and_assoc]

theorem render_cells_facts (ctext : List Nat) (mrow mcol : Nat) (cells : List Cell)
    (hn : 4 * ctext.length + 12 < 4294967296)
    (hcells : render_cells ctext mrow mcol = some cells) :
    (∀ c ∈ cells, c.crow % 3 = 0 ∧ 3 ≤ c.crow ∧ c.crow < 4294967296) ∧
    cells.Pairwise (fun a b => ¬ (a.crow = b.crow ∧ a.ccol = b.ccol)) := by
  obtain ⟨hall, hpair⟩ := render_cells_layout ctext mrow mcol hn ctext.length 0 rowspace pad
    cells hcells (by decide) (by decide) (by decide) (by decide)
  refine ⟨?_, hpair⟩
  intro c hc
  obtain ⟨a1, a2, a3, _⟩ := hall c hc
  exact ⟨a1, a2, a3⟩

/-- At most one rendered cell is hit by a click. -/
theorem click_hits_unique (ctext : List Nat) (mrow mcol row col : Nat) (cells : List Cell)
    (hn : 4 * ctext.length + 12 < 4294967296)
    (hcells : render_cells ctext mrow mcol = some cells) (a b : Cell) (ha : a ∈ cells)
    (hb : b ∈ cells) (hha : click_hits ctext row col a = true)
    (hhb : click_hits ctext row col b = true) : a = b := by
  obtain ⟨hall, hpair⟩ := render_cells_facts ctext mrow mcol cells hn hcells
  by_contra hne
  have hsym : Symmetric (fun a b : Cell => ¬ (a.crow = b.crow ∧ a.ccol = b.ccol)) := by
    intro x y hxy hyx
    exact hxy ⟨hyx.1.symm, hyx.2.symm⟩
  have hR := hpair.forall hsym ha hb hne
  simp only [click_hits, Bool.and_eq_true, Bool.or_eq_true, decide_eq_true_eq] at hha hhb
  have ha3 := (hall a ha).1
  have hb3 := (hall b hb).1
  apply hR
  refine ⟨?_, by rw [hha.1.2, hhb.1.2]⟩
  rcases hha.2 with h1 | h1 <;> rcases hhb.2 with h2 | h2 <;> omega

theorem display_pass_of_cells (ctext : List Nat) (mrow mcol : Nat) (st : PuzzleState)
    (act : Action) (pa : PuzzleState × Nat × Nat × Nat) (cells : List Cell)
    (hn : ctext.length < 4294967295)
    (hpa : process_action ctext mcol st act = some pa)
    (hcells : render_cells ctext mrow mcol = some cells) :
    ∃ fr, display_pass ctext mrow mcol st act = some fr ∧ fr.stext = pa.1.stext ∧
      fr.rerenders = 0 ∧
      fr.cursor_pos =
        if pa.1.cursor_pos = CURSOR_MOUSE then
          (match cells.find? (mouse_hit ctext pa.2.2.1 pa.2.2.2) with
            | some c => c.idx
            | none => CURSOR_MOUSE)
        else pa.1.cursor_pos := by
  obtain ⟨st1, msgs, mouserow, mousecol⟩ := pa
  obtain ⟨rs1, hloop, hres⟩ := render_loop_of_cells ctext mrow mcol mouserow mousecol hn
    ctext.length 0 cells
    { crow := rowspace, ccol := pad, cursor_pos := st1.cursor_pos, cursor_row := 0,
      cursor_col := 0, breaks := [] } hcells
  unfold display_pass
  rw [hpa]
  simp only []
  rw [hloop]
  exact ⟨_, rfl, rfl, rfl, hres⟩

theorem isalnum_lt_length (ctext : List Nat) (i : Nat) (h : isalnum (charAt ctext i) = true) :
    i < ctext.length := by
  by_contra hge
  rw [charAt_of_le ctext i (by omega)] at h
  exact absurd h (by decide)

/-! ### Claims on clicks -/

/-- C15 (click resolution).  Let the render of the text meet no assertion
failure and draw the cells `cells` (the ciphertext being short enough for the
screen arithmetic not to wrap, `4 * tlen + 12 < 2^32`).  If the cell of an
alphanumeric index is drawn at column `col` with its cipher row equal to `row`
or to `row + 1`, then every rendered cell with that property is this cell, and
`display` with the click (`row`, `col`) returns after one render with the
cursor on that index and the solution buffer unchanged. -/
theorem click_resolution (ctext : List Nat) (mrow mcol row col : Nat) (st : PuzzleState)
    (cells : List Cell) (cell : Cell) (hn : 4 * ctext.length + 12 < 4294967296)
    (hcells : render_cells ctext mrow mcol = some cells) (hmem : cell ∈ cells)
    (hhit : click_hits ctext row col cell = true) :
    (∀ c ∈ cells, click_hits ctext row col c = true → c = cell) ∧
    ∃ fr, display ctext mrow mcol st (Action.JUMP_CURSOR row col) = some fr ∧
      fr.cursor_pos = cell.idx ∧ fr.stext = st.stext ∧ fr.rerenders = 0 := by
  have huniq : ∀ c ∈ cells, click_hits ctext row col c = true → c = cell :=
    fun c hc hh => click_hits_unique ctext mrow mcol row col cells hn hcells c cell hc hmem hh hhit
  refine ⟨huniq, ?_⟩
  obtain ⟨hall, _⟩ := render_cells_facts ctext mrow mcol cells hn hcells
  have hpa : process_action ctext mcol st (Action.JUMP_CURSOR row col) =
      some ({ st with cursor_pos := CURSOR_MOUSE }, 0, row, col) := rfl
  obtain ⟨fr1, hp1, hs1, hr1, hc1⟩ := display_pass_of_cells ctext mrow mcol st _ _ cells
    (by omega) hpa hcells
  simp only [if_true] at hc1
  have hidx : fr1.cursor_pos = cell.idx := by
    cases hf : cells.find? (mouse_hit ctext row col) with
    | none =>
      have hnone := List.find?_eq_none.mp hf cell hmem
      rw [mouse_hit_eq_click_hits ctext row col cell (hall cell hmem).2.1 (hall cell hmem).2.2]
        at hnone
      exact absurd hhit hnone
    | some c0 =>
      rw [hf] at hc1
      simp only [] at hc1
      have hc0 := List.mem_of_find?_eq_some hf
      have hh0 := List.find?_some hf
      rw [mouse_hit_eq_click_hits ctext row col c0 (hall c0 hc0).2.1 (hall c0 hc0).2.2] at hh0
      rw [hc1, huniq c0 hc0 hh0]
  have halnum : isalnum (charAt ctext cell.idx) = true := by
    simp only [click_hits, Bool.and_eq_true] at hhit
    exact hhit.1.1
  have hlt := isalnum_lt_length ctext cell.idx halnum
  have hset : CURSOR_SET fr1.cursor_pos = true := by
    simp only [CURSOR_SET, CURSOR_MOUSE, decide_eq_true_eq, hidx]
    omega
  refine ⟨fr1, ?_, hidx, hs1, hr1⟩
  unfold display
  rw [hp1]
  simp only []
  rw [if_pos hset]

theorem click_resolution_witness :
    (4 * [97, 98, 32, 99, 100, 32, 101].length + 12 < 4294967296 ∧
      render_cells [97, 98, 32, 99, 100, 32, 101] 24 26 = some [Cell.mk 0 3 10, Cell.mk 1 3 12, Cell.mk 3 6 10, Cell.mk 4 6 12, Cell.mk 6 9 10] ∧
      Cell.mk 4 6 12 ∈ [Cell.mk 0 3 10, Cell.mk 1 3 12, Cell.mk 3 6 10, Cell.mk 4 6 12, Cell.mk 6 9 10] ∧
      click_hits [97, 98, 32, 99, 100, 32, 101] 5 12 (Cell.mk 4 6 12) = true ∧
      (display [97, 98, 32, 99, 100, 32, 101] 24 26 (PuzzleState.mk 0 [120, 0, 0, 0, 0, 0, 0]) (Action.JUMP_CURSOR 5 12)).map (fun fr => fr.cursor_pos)
        = some 4) ∧
    ((∀ c ∈ [Cell.mk 0 3 10, Cell.mk 1 3 12, Cell.mk 3 6 10, Cell.mk 4 6 12, Cell.mk 6 9 10], click_hits [97, 98, 32, 99, 100, 32, 101] 5 12 c = true → c = Cell.mk 4 6 12) ∧
    ∃ fr, display [97, 98, 32, 99, 100, 32, 101] 24 26 (PuzzleState.mk 0 [120, 0, 0, 0, 0, 0, 0]) (Action.JUMP_CURSOR 5 12) = some fr ∧
      fr.cursor_pos = (Cell.mk 4 6 12).idx ∧ fr.stext = (PuzzleState.mk 0 [120, 0, 0, 0, 0, 0, 0]).stext ∧ fr.rerenders = 0) :=
  ⟨by decide,
    click_resolution [97, 98, 32, 99, 100, 32, 101] 24 26 5 12 (PuzzleState.mk 0 [120, 0, 0, 0, 0, 0, 0]) [Cell.mk 0 3 10, Cell.mk 1 3 12, Cell.mk 3 6 10, Cell.mk 4 6 12, Cell.mk 6 9 10] (Cell.mk 4 6 12) (by decide) (by decide)
      (by decide) (by decide)⟩

/-- C14 (an invalid click is fully discarded).  Let the cursor be set, let the
render of the text meet no assertion failure and draw the cells `cells` (the
ciphertext being short enough for the screen arithmetic not to wrap), and let
the click (`row`, `col`) be on no cell of an alphanumeric character.  Then
`display` with the click returns after exactly one nested re-render, with the
cursor of before the click, the solution buffer unchanged, and the cursor
set. -/
theorem invalid_click_discarded (ctext : List Nat) (mrow mcol row col : Nat) (st : PuzzleState)
    (cells : List Cell) (hn : 4 * ctext.length + 12 < 4294967296)
    (hset : CURSOR_SET st.cursor_pos = true)
    (hcells : render_cells ctext mrow mcol = some cells)
    (hmiss : ∀ c ∈ cells, click_hits ctext row col c = false) :
    ∃ fr, display ctext mrow mcol st (Action.JUMP_CURSOR row col) = some fr ∧
      fr.rerenders = 1 ∧ fr.cursor_pos = st.cursor_pos ∧ fr.stext = st.stext ∧
      CURSOR_SET fr.cursor_pos = true := by
  obtain ⟨hall, _⟩ := render_cells_facts ctext mrow mcol cells hn hcells
  have hpa : process_action ctext mcol st (Action.JUMP_CURSOR row col) =
      some ({ st with cursor_pos := CURSOR_MOUSE }, 0, row, col) := rfl
  obtain ⟨fr1, hp1, hs1, _, hc1⟩ := display_pass_of_cells ctext mrow mcol st _ _ cells
    (by omega) hpa hcells
  simp only [if_true] at hc1
  have hf : cells.find? (mouse_hit ctext row col) = none := by
    rw [List.find?_eq_none]
    intro c hc
    rw [mouse_hit_eq_click_hits ctext row col c (hall c hc).2.1 (hall c hc).2.2, hmiss c hc]
    decide
  rw [hf] at hc1
  simp only [] at hc1 hs1
  have hnset : ¬ (CURSOR_SET fr1.cursor_pos = true) := by
    rw [hc1]
    decide
  have hpa2 : process_action ctext mcol { cursor_pos := st.cursor_pos, stext := fr1.stext }
      Action.NONE = some ({ cursor_pos := st.cursor_pos, stext := fr1.stext }, 0, 0, 0) := rfl
  obtain ⟨fr2, hp2, hs2, _, hc2⟩ := display_pass_of_cells ctext mrow mcol _ _ _ cells
    (by omega) hpa2 hcells
  have hne : ¬ (st.cursor_pos = CURSOR_MOUSE) := by
    simp only [CURSOR_SET, decide_eq_true_eq] at hset
    omega
  simp only [hne, if_false] at hc2
  simp only [] at hs2
  have hset2 : CURSOR_SET fr2.cursor_pos = true := by
    rw [hc2]
    exact hset
  refine ⟨{ fr2 with rerenders := 1 }, ?_, rfl, hc2, by rw [hs2, hs1], hset2⟩
  unfold display
  rw [hp1]
  simp only []
  rw [if_neg hnset, hp2]
  simp only []
  rw [if_pos hset2]

theorem invalid_click_discarded_witness :
    (4 * [97, 98, 32, 99, 100, 32, 101].length + 12 < 4294967296 ∧
      CURSOR_SET (PuzzleState.mk 0 [120, 0, 0, 0, 0, 0, 0]).cursor_pos = true ∧
      render_cells [97, 98, 32, 99, 100, 32, 101] 24 26 = some [Cell.mk 0 3 10, Cell.mk 1 3 12, Cell.mk 3 6 10, Cell.mk 4 6 12, Cell.mk 6 9 10] ∧
      (∀ c ∈ [Cell.mk 0 3 10, Cell.mk 1 3 12, Cell.mk 3 6 10, Cell.mk 4 6 12, Cell.mk 6 9 10], click_hits [97, 98, 32, 99, 100, 32, 101] 20 12 c = false) ∧
      display [97, 98, 32, 99, 100, 32, 101] 24 26 (PuzzleState.mk 0 [120, 0, 0, 0, 0, 0, 0]) (Action.JUMP_CURSOR 20 12) =
        some (Frame.mk 0 [120, 0, 0, 0, 0, 0, 0] 2 10 0 [2, 5] 1)) ∧
    ∃ fr, display [97, 98, 32, 99, 100, 32, 101] 24 26 (PuzzleState.mk 0 [120, 0, 0, 0, 0, 0, 0]) (Action.JUMP_CURSOR 20 12) = some fr ∧
      fr.rerenders = 1 ∧ fr.cursor_pos = (PuzzleState.mk 0 [120, 0, 0, 0, 0, 0, 0]).cursor_pos ∧ fr.stext = (PuzzleState.mk 0 [120, 0, 0, 0, 0, 0, 0]).stext ∧
      CURSOR_SET fr.cursor_pos = true :=
  ⟨by decide,
    invalid_click_discarded [97, 98, 32, 99, 100, 32, 101] 24 26 20 12 (PuzzleState.mk 0 [120, 0, 0, 0, 0, 0, 0]) [Cell.mk 0 3 10, Cell.mk 1 3 12, Cell.mk 3 6 10, Cell.mk 4 6 12, Cell.mk 6 9 10] (by decide) (by decide) (by decide)
      (by decide)⟩

end Cryptsolver
